import Mathlib

/-!
# Matrix sync engine (`internal/matrixapi/client.go`)

A shallow embedding of `Client.Sync` and the functions it uses.

`Client.Sync` is a generator that talks to an environment: the homeserver
answers the poll (`syncOnce`) and join calls, the consumer answers each `yield`
with continue or stop, the context may be cancelled, and the Go runtime chooses
the order in which `range` visits the keys of the `seen` map.  The embedding
makes that environment explicit:

* the answers of the successive `syncOnce` calls are a list `polls`; the list is
  a finite prefix of what the server does, and a run that has used it up ends
  in status `awaiting` with its last poll issued and unanswered;
* the other choices are the fields of `Env`, each a function of what has
  happened so far;
* everything the engine does is appended to a trace of `Action`s.

The `seen` map of the client (`map[string]struct{}`) is the list of its keys, in
the order of their insertion; a map holds a key once, so the list is duplicate
free, and the dedup step keeps it so (`dedupStep_nodup`).  The order in which
`range` visits the keys is not the order of the list: it is chosen by
`Env.rangePick`.
-/

namespace matrixapi

/-! ## types.go -/

/-- The `Content` struct of a `MatrixEvent`. -/
structure EventContent where
  MsgType : String
  Body : String
deriving DecidableEq

/-- The struct `MatrixEvent`; its field `Type` is called `Typ` here. -/
structure MatrixEvent where
  EventID : String
  Typ : String
  Sender : String
  Content : EventContent
deriving DecidableEq

/-- The `Timeline` struct of a joined room. -/
structure RoomTimeline where
  Events : List MatrixEvent
deriving DecidableEq

/-- The value type of the map `Rooms.Join`. -/
structure JoinedRoom where
  Timeline : RoomTimeline
deriving DecidableEq

/-- The `Rooms` struct of a `SyncResponse`.  `Invite` is a `map[string]any` of
which only the keys are used: they are listed in the order in which `range`
visits them.  `Join` is a map from room identifier to joined room, given as an
association list that `List.lookup` reads. -/
structure SyncRooms where
  Invite : List String
  Join : List (String × JoinedRoom)
deriving DecidableEq

/-- The struct `SyncResponse`. -/
structure SyncResponse where
  NextBatch : String
  Rooms : SyncRooms
deriving DecidableEq

/-! ## client.go -/

/-- The struct `Client`, without the HTTP client and the mutex.  `seen` is the
key set of the map. -/
structure Client where
  Homeserver : String
  AccessToken : String
  RoomID : String
  HumanUserID : String
  BotUserID : String
  seen : List String

/-- The type `Option` of client.go: a function that updates the client. -/
abbrev ClientOption := Client → Client

/-- `NewClient`: an empty `seen` map, then the options in order. -/
def NewClient (opts : List ClientOption) : Client :=
  opts.foldl (fun c opt => opt c)
    { Homeserver := "", AccessToken := "", RoomID := "", HumanUserID := "",
      BotUserID := "", seen := [] }

def WithHomeserver (url : String) : ClientOption :=
  fun c => { c with Homeserver := url }

def WithAccessToken (token : String) : ClientOption :=
  fun c => { c with AccessToken := token }

def WithRoomID (id : String) : ClientOption :=
  fun c => { c with RoomID := id }

def WithHumanUserID (id : String) : ClientOption :=
  fun c => { c with HumanUserID := id }

/-- The struct `WhoamiResponse` of types.go. -/
structure WhoamiResponse where
  UserID : String
deriving DecidableEq

/-- Lines 90-103, `Whoami`, given what the request and the decoding of its
body produce: on success the client records the identity of the bot. -/
def Whoami (res : Except String WhoamiResponse) (c : Client) : Client × Option String :=
  match res with
  | Except.error err => (c, some err)
  | Except.ok data => ({ c with BotUserID := data.UserID }, none)

/-- What a call of `syncOnce` returns: `(*SyncResponse, error)`. -/
abbrev PollResult := Except String SyncResponse

/-- The `filter` of `syncOnce`, line 206. -/
def syncFilter : String :=
  "\x7b\"room\":\x7b\"timeline\":\x7b\"types\":[\"m.room.message\"],\"limit\":20\x7d\x7d\x7d"

/-- Lines 206-210 of `syncOnce`: the path of the request for a token and a
timeout, `escape` being `url.QueryEscape`.  The `since` parameter is left out
when the token is empty. -/
def syncOncePath (escape : String → String) (since : String) (timeout : Nat) : String :=
  let path := "/_matrix/client/v3/sync?timeout=" ++ toString timeout ++
    "&set_presence=offline&filter=" ++ escape syncFilter
  if since ≠ "" then path ++ "&since=" ++ escape since else path

/-- What a call of `joinRoom` returns: `error`, `none` for `nil`. -/
abbrev JoinResult := Option String

/-- What the engine does, in the order in which it does it. -/
inductive Action where
  /-- A call `c.syncOnce(ctx, since, timeout)`. -/
  | poll (since : String) (timeout : Nat)
  /-- A call `c.joinRoom(ctx, rid)` and the error it returned. -/
  | join (rid : String) (err : JoinResult)
  /-- A call `time.Sleep` of so many milliseconds. -/
  | sleep (ms : Nat)
  /-- The dedup step (lines 175-190) of an event has completed: the identifier
  of the event and the keys of `c.seen` when the mutex is released. -/
  | dedup (id : String) (seen : List String)
  /-- A call `yield(&ev, nil)`. -/
  | yieldEvent (ev : MatrixEvent)
  /-- A call `yield(nil, err)`. -/
  | yieldError (err : String)
deriving DecidableEq

/-- An element of the sequence: the two arguments of `yield`. -/
inductive Elem where
  | event (ev : MatrixEvent)
  | error (err : String)
deriving DecidableEq

/-- The elements yielded in a trace. -/
def yields : List Action → List Elem
  | [] => []
  | Action.yieldEvent ev :: tr => Elem.event ev :: yields tr
  | Action.yieldError err :: tr => Elem.error err :: yields tr
  | _ :: tr => yields tr

/-- The `syncOnce` calls of a trace: their `since` and `timeout` arguments. -/
def pollCalls : List Action → List (String × Nat)
  | [] => []
  | Action.poll since timeout :: tr => (since, timeout) :: pollCalls tr
  | _ :: tr => pollCalls tr

/-- The number of dedup steps completed in a trace. -/
def dedupCount : List Action → Nat
  | [] => 0
  | Action.dedup _ _ :: tr => dedupCount tr + 1
  | _ :: tr => dedupCount tr

/-- The environment of a run of `Client.Sync`. -/
structure Env where
  /-- Whether `ctx.Done()` is closed at the `select` of line 145, given the
  number of `syncOnce` calls made so far. -/
  cancelled : Nat → Bool
  /-- What `yield` returns, given the elements yielded so far, the current one
  last: `true` to continue, `false` to stop. -/
  consumer : List Elem → Bool
  /-- What `joinRoom` returns for a room, given the number of `syncOnce` calls
  made so far. -/
  joinResult : Nat → String → JoinResult
  /-- The order of `for k := range c.seen`: in the eviction loop of the dedup
  step number `n` (counted from 0), iteration number `i` visits the key at
  index `rangePick n i % len` of the keys still in the map. -/
  rangePick : Nat → Nat → Nat

/-- The local state of `Client.Sync`, with the trace of what it has done. -/
structure SyncState where
  since : String
  seen : List String
  trace : List Action

/-- Append an action to the trace. -/
def SyncState.emit (st : SyncState) (a : Action) : SyncState :=
  { st with trace := st.trace ++ [a] }

/-- How a run ends. -/
inductive Status where
  /-- Still in the loop (of an inner loop: it ran to its end). -/
  | running
  /-- The list of poll results is used up: the last poll is unanswered. -/
  | awaiting
  /-- The bootstrap `syncOnce` failed: `return` of line 140. -/
  | bootFailed
  /-- The consumer returned `false`: `return` of lines 152 and 197. -/
  | stopped
  /-- The context is done: `return` of line 147. -/
  | cancelled
deriving DecidableEq

/-- Lines 181-189: `for k := range c.seen { delete(c.seen, k); if len(c.seen)
<= 1000 { break } }`.  Every iteration deletes the key it visits, so the keys
not yet visited are the keys still in the map, and `pick i` chooses among them.
`fuel` is the number of keys in the map: a `range` over a map makes no more
iterations than the map has keys. -/
def evictLoop (pick : Nat → Nat) : Nat → Nat → List String → List String
  | 0, _, m => m
  | fuel + 1, i, m =>
    match m with
    | [] => []
    | k0 :: ks =>
      let k := (k0 :: ks).getD (pick i % (k0 :: ks).length) k0
      let m1 := (k0 :: ks).erase k
      if m1.length ≤ 1000 then m1 else evictLoop pick fuel (i + 1) m1

/-- The assignment `c.seen[id] = struct{}{}` of line 180. -/
def mapSet (m : List String) (id : String) : List String :=
  if id ∈ m then m else m ++ [id]

/-- Lines 175-190, the dedup step: whether `id` was in `c.seen`, and `c.seen`
afterwards. -/
def dedupStep (pick : Nat → Nat) (seen : List String) (id : String) :
    Bool × List String :=
  if id ∈ seen then (true, seen)
  else
    let seen1 := mapSet seen id
    if seen1.length > 1000 then (false, evictLoop pick seen1.length 0 seen1)
    else (false, seen1)

/-- Lines 175-190 on the state of the run: whether the identifier was in
`c.seen`, and the state once the mutex is released. -/
def markSeen (env : Env) (st : SyncState) (id : String) : Bool × SyncState :=
  let r := dedupStep (env.rangePick (dedupCount st.trace)) st.seen id
  (r.1, { st with seen := r.2, trace := st.trace ++ [Action.dedup id r.2] })

/-- Lines 170-199: the loop over the timeline events of the configured room.
The result is `running` when the loop ran to its end and `stopped` when the
consumer returned `false`. -/
def timelineLoop (c : Client) (env : Env) :
    List MatrixEvent → SyncState → SyncState × Status
  | [], st => (st, Status.running)
  | ev :: rest, st =>
    if ev.EventID = "" ∨ ev.Typ ≠ "m.room.message" ∨ ev.Content.MsgType ≠ "m.text" then
      timelineLoop c env rest st
    else
      let r := markSeen env st ev.EventID
      if r.1 then timelineLoop c env rest r.2
      else if ev.Sender = c.BotUserID ∨ ev.Sender ≠ c.HumanUserID then
        timelineLoop c env rest r.2
      else
        let st2 := r.2.emit (Action.yieldEvent ev)
        if env.consumer (yields st2.trace) then timelineLoop c env rest st2
        else (st2, Status.stopped)

/-- Lines 122-130, `joinRoom`: the error of the request, if any. -/
def joinRoom (env : Env) (st : SyncState) (roomID : String) : JoinResult :=
  env.joinResult (pollCalls st.trace).length roomID

/-- Lines 161-163: `for rid := range resp.Rooms.Invite { _ = c.joinRoom(ctx, rid) }`. -/
def joinLoop (env : Env) : List String → SyncState → SyncState
  | [], st => st
  | rid :: rest, st => joinLoop env rest (st.emit (Action.join rid (joinRoom env st rid)))

/-- Lines 150-199: the body of one iteration of the loop once `syncOnce` has
returned `res`.  The status is `running` when the iteration ends in `continue`
or at the end of the body, and `stopped` when it ends in `return`. -/
def iteration (c : Client) (env : Env) (res : PollResult) (st : SyncState) :
    SyncState × Status :=
  match res with
  | Except.error err =>
    let st2 := st.emit (Action.yieldError err)
    if env.consumer (yields st2.trace) then (st2.emit (Action.sleep 2000), Status.running)
    else (st2, Status.stopped)
  | Except.ok resp =>
    let st2 : SyncState := { st with since := resp.NextBatch }
    let st3 := joinLoop env resp.Rooms.Invite st2
    match resp.Rooms.Join.lookup c.RoomID with
    | none => (st3, Status.running)
    | some room => timelineLoop c env room.Timeline.Events st3

/-- Lines 144-201: the steady-state loop, one iteration for each poll result. -/
def steadyLoop (c : Client) (env : Env) :
    List PollResult → SyncState → SyncState × Status
  | [], st =>
    if env.cancelled (pollCalls st.trace).length then (st, Status.cancelled)
    else (st.emit (Action.poll st.since 30000), Status.awaiting)
  | res :: rest, st =>
    if env.cancelled (pollCalls st.trace).length then (st, Status.cancelled)
    else
      let r := iteration c env res (st.emit (Action.poll st.since 30000))
      if r.2 = Status.running then steadyLoop c env rest r.1 else r

/-- Lines 132-203, `Client.Sync`: the bootstrap call, then the loop. -/
def Sync (c : Client) (env : Env) (polls : List PollResult) : SyncState × Status :=
  let st0 : SyncState := { since := "", seen := c.seen, trace := [Action.poll "" 0] }
  match polls with
  | [] => (st0, Status.awaiting)
  | Except.error err :: _ => (st0.emit (Action.yieldError err), Status.bootFailed)
  | Except.ok boot :: rest => steadyLoop c env rest { st0 with since := boot.NextBatch }

/-- The client after a run of `Sync`: the run updates the map `c.seen` in
place, so a later run on the same client starts from it. -/
def clientAfter (c : Client) (env : Env) (polls : List PollResult) : Client :=
  { c with seen := (Sync c env polls).1.seen }

/-! ## The words of the specification -/

/-- The timeline events of the configured room in a response; none when the
room is not among the joined rooms of the response. -/
def roomEvents (c : Client) (resp : SyncResponse) : List MatrixEvent :=
  match resp.Rooms.Join.lookup c.RoomID with
  | none => []
  | some room => room.Timeline.Events

/-- The events of the configured room over the successful batches of a list of
steady-state poll results, in poll order. -/
def steadyEvents (c : Client) : List PollResult → List MatrixEvent
  | [] => []
  | Except.ok resp :: rest => roomEvents c resp ++ steadyEvents c rest
  | Except.error _ :: rest => steadyEvents c rest

/-- A text message: non-empty `EventID`, `Type` "m.room.message", `MsgType`
"m.text". -/
def isTextMessage (ev : MatrixEvent) : Bool :=
  decide (ev.EventID ≠ "" ∧ ev.Typ = "m.room.message" ∧ ev.Content.MsgType = "m.text")

/-- Sent by the configured human and not by the bot. -/
def fromHuman (c : Client) (ev : MatrixEvent) : Bool :=
  decide (ev.Sender = c.HumanUserID ∧ ev.Sender ≠ c.BotUserID)

/-- The events yielded in a trace. -/
def yieldedEvents : List Action → List MatrixEvent
  | [] => []
  | Action.yieldEvent ev :: tr => ev :: yieldedEvents tr
  | _ :: tr => yieldedEvents tr

/-- The identifiers that reached the dedup step in a trace. -/
def dedupIds : List Action → List String
  | [] => []
  | Action.dedup id _ :: tr => id :: dedupIds tr
  | _ :: tr => dedupIds tr

/-- Keep the events whose `EventID` did not occur in an earlier event, the
events of `earlier` being the ones before the list. -/
def firstOccurrences (earlier : List MatrixEvent) : List MatrixEvent → List MatrixEvent
  | [] => []
  | ev :: rest =>
    if ev.EventID ∈ earlier.map (fun e => e.EventID) then
      firstOccurrences (earlier ++ [ev]) rest
    else ev :: firstOccurrences (earlier ++ [ev]) rest

/-- The events that the specification delivers for a list of poll results, the
first being the answer to the bootstrap call: of the events of the configured
room over the successful steady-state batches, the text messages whose
`EventID` did not occur in an earlier text message, sent by the human and not
by the bot.  Nothing when the bootstrap call fails or is unanswered. -/
def expectedEvents (c : Client) : List PollResult → List MatrixEvent
  | Except.ok _ :: rest =>
    (firstOccurrences [] ((steadyEvents c rest).filter isTextMessage)).filter (fromHuman c)
  | _ => []

/-- The seen set holds the identifiers of the events of `earlier`, once each. -/
def SeenMatches (seen : List String) (earlier : List MatrixEvent) : Prop :=
  seen.Nodup ∧ ∀ x, x ∈ seen ↔ x ∈ earlier.map (fun e => e.EventID)

/-- While at most 1000 distinct identifiers have reached the dedup step, the
seen set holds exactly these identifiers, once each, the identifiers of the
yielded events are among them, and no identifier was yielded twice. -/
def SeenTracks (seen : List String) (tr : List Action) : Prop :=
  (dedupIds tr).toFinset.card ≤ 1000 →
    seen.Nodup ∧ (∀ x, x ∈ seen ↔ x ∈ dedupIds tr) ∧
    (∀ ev ∈ yieldedEvents tr, ev.EventID ∈ dedupIds tr) ∧
    ((yieldedEvents tr).map (fun e => e.EventID)).Nodup

/-- In every initial part of the trace in which at most 1000 distinct
identifiers have reached the dedup step, no identifier is yielded twice. -/
def NoRedelivery (tr : List Action) : Prop :=
  ∀ pre post, tr = pre ++ post → (dedupIds pre).toFinset.card ≤ 1000 →
    ((yieldedEvents pre).map (fun e => e.EventID)).Nodup

/-- The continuation token after a list of poll results when it was `since`
before them: the `NextBatch` of the last success, `since` when there is none. -/
def tokenAfter (since : String) : List PollResult → String
  | [] => since
  | Except.ok resp :: rest => tokenAfter resp.NextBatch rest
  | Except.error _ :: rest => tokenAfter since rest

/-! ## A run to try the statements on

The scenario of section 8 of the specification: the bootstrap poll returns
"t0"; the next poll returns "t1" and the events "e1" and "e2" of the human; the
next repeats "e2"; the next fails; the last returns "t3" and no event. -/

/-- A text message of the room. -/
def exEvent (id sender : String) : MatrixEvent :=
  { EventID := id, Typ := "m.room.message", Sender := sender,
    Content := { MsgType := "m.text", Body := "hello" } }

/-- The client of `main.go`: the four options, then `Whoami`. -/
def exClient : Client :=
  (Whoami (Except.ok { UserID := "@bot:example.org" })
    (NewClient [WithHomeserver "https://example.org", WithAccessToken "secret",
      WithRoomID "!room:example.org", WithHumanUserID "@jni:example.org"])).1

/-- A successful poll result with the given token and timeline of the room. -/
def exBatch (next : String) (evs : List MatrixEvent) : PollResult :=
  Except.ok { NextBatch := next,
              Rooms := { Invite := [],
                         Join := [("!room:example.org", { Timeline := { Events := evs } })] } }

/-- The poll results of the scenario. -/
def exPolls : List PollResult :=
  [exBatch "t0" [],
   exBatch "t1" [exEvent "e1" "@jni:example.org", exEvent "e2" "@jni:example.org"],
   exBatch "t2" [exEvent "e2" "@jni:example.org"],
   Except.error "connection reset",
   exBatch "t3" []]

/-- An environment in which the context is cancelled once four `syncOnce` calls
have been made; the consumer never stops. -/
def exCancelEnv : Env :=
  { cancelled := fun n => decide (n = 4), consumer := fun _ => true,
    joinResult := fun _ _ => none, rangePick := fun _ _ => 0 }

/-- An environment whose consumer stops at the second element. -/
def exStopEnv : Env :=
  { cancelled := fun _ => false, consumer := fun ys => decide (ys.length < 2),
    joinResult := fun _ _ => none, rangePick := fun _ _ => 0 }

/-- An environment: no cancellation, a consumer that never stops, joins that
succeed, and a `range` that starts at index 1000: of the 1001 keys of a map
over capacity, the one inserted last. -/
def exEnv : Env :=
  { cancelled := fun _ => false, consumer := fun _ => true,
    joinResult := fun _ _ => none, rangePick := fun _ _ => 1000 }

/-- A thousand distinct identifiers: "e", "ee", "eee" and so on. -/
def exIds : List String :=
  (List.range 1000).map (fun n => String.mk (List.replicate (n + 1) 'e'))

/-- A run that fills the seen set: the bootstrap poll; a batch with a thousand
messages of the bot, with the identifiers `exIds`, followed by the message "x"
of the human; a batch that delivers "x" again. -/
def exFullPolls : List PollResult :=
  [exBatch "t0" [],
   exBatch "t1" (exIds.map (fun id => exEvent id "@bot:example.org") ++
     [exEvent "x" "@jni:example.org"]),
   exBatch "t2" [exEvent "x" "@jni:example.org"]]

/-- An environment whose `range` starts at index 999: of the 1001 keys of a map
over capacity, the one inserted just before the newest. -/
def exChurnEnv : Env :=
  { cancelled := fun _ => false, consumer := fun _ => true,
    joinResult := fun _ _ => none, rangePick := fun _ _ => 999 }

/-- A run with eviction churn: the bootstrap poll; a batch with a thousand
messages of the bot, with the identifiers `exIds`, followed by the messages "x"
and "y" of the human; a batch that delivers "x" again. -/
def exChurnPolls : List PollResult :=
  [exBatch "t0" [],
   exBatch "t1" (exIds.map (fun id => exEvent id "@bot:example.org") ++
     [exEvent "x" "@jni:example.org", exEvent "y" "@jni:example.org"]),
   exBatch "t2" [exEvent "x" "@jni:example.org"]]

/-! ## Predicates on traces -/

/-- An event that was yielded and after which only dedup steps of its own
identifier have taken place has its identifier in the seen set. -/
def RecentlyYieldedSeen (seen : List String) (tr : List Action) : Prop :=
  ∀ pre e mid, tr = pre ++ Action.yieldEvent e :: mid →
    (∀ id s, Action.dedup id s ∈ mid → id = e.EventID) → e.EventID ∈ seen

/-- Between two yields of events with the same identifier there is the dedup
step of another identifier. -/
def NoImmediateRedelivery (tr : List Action) : Prop :=
  ∀ pre e1 mid e2 post,
    tr = pre ++ Action.yieldEvent e1 :: (mid ++ Action.yieldEvent e2 :: post) →
    e1.EventID = e2.EventID → ∃ id s, Action.dedup id s ∈ mid ∧ id ≠ e1.EventID

/-- An action that hands an element to the consumer. -/
def Action.isYield : Action → Bool
  | Action.yieldEvent _ => true
  | Action.yieldError _ => true
  | _ => false

/-- Nothing follows a yield that the consumer answered with stop. -/
def StopsAtRefusal (env : Env) (tr : List Action) : Prop :=
  ∀ pre a post, tr = pre ++ a :: post → a.isYield = true →
    env.consumer (yields (pre ++ [a])) = false → post = []

/-- The last action of the trace is not a yield that the consumer answered
with stop. -/
def LastAccepted (env : Env) (tr : List Action) : Prop :=
  ∀ pre a, tr = pre ++ [a] → a.isYield = true → env.consumer (yields tr) = true

/-- An action without the recorded result of a join call. -/
def Action.withoutJoinResult : Action → Action
  | Action.join rid _ => Action.join rid none
  | a => a

/-- Two states with the same token, the same seen set and the same trace up
to the results of the join calls. -/
def SameButJoins (st1 st2 : SyncState) : Prop :=
  st1.since = st2.since ∧ st1.seen = st2.seen ∧
    st1.trace.map Action.withoutJoinResult = st2.trace.map Action.withoutJoinResult

/-! ## Lemmas: traces -/

theorem yields_append (a b : List Action) : yields (a ++ b) = yields a ++ yields b := by
  induction a with
  | nil => rfl
  | cons x xs ih => cases x <;> simp [yields, ih]

theorem pollCalls_append (a b : List Action) :
    pollCalls (a ++ b) = pollCalls a ++ pollCalls b := by
  induction a with
  | nil => rfl
  | cons x xs ih => cases x <;> simp [pollCalls, ih]

theorem dedupCount_append (a b : List Action) :
    dedupCount (a ++ b) = dedupCount a + dedupCount b := by
  induction a with
  | nil => simp [dedupCount]
  | cons x xs ih => cases x <;> simp [dedupCount, ih]; omega

@[simp] theorem emit_trace (st : SyncState) (a : Action) :
    (st.emit a).trace = st.trace ++ [a] := rfl

@[simp] theorem emit_since (st : SyncState) (a : Action) : (st.emit a).since = st.since := rfl

@[simp] theorem emit_seen (st : SyncState) (a : Action) : (st.emit a).seen = st.seen := rfl

/-- The join loop appends join calls and changes nothing else. -/
theorem joinLoop_spec (env : Env) (rids : List String) (st : SyncState) :
    ∃ suf, (joinLoop env rids st).trace = st.trace ++ suf ∧
      (∀ a ∈ suf, ∃ rid e, a = Action.join rid e) ∧
      (joinLoop env rids st).since = st.since ∧ (joinLoop env rids st).seen = st.seen := by
  induction rids generalizing st with
  | nil => exact ⟨[], by simp [joinLoop]⟩
  | cons rid rest ih =>
    obtain ⟨suf, h1, h2, h3, h4⟩ := ih (st.emit (Action.join rid (joinRoom env st rid)))
    refine ⟨Action.join rid (joinRoom env st rid) :: suf, ?_, ?_, ?_, ?_⟩
    · rw [joinLoop, h1]; simp
    · intro a ha
      rcases List.mem_cons.1 ha with h | h
      · exact ⟨_, _, h⟩
      · exact h2 a h
    · rw [joinLoop, h3]; simp
    · rw [joinLoop, h4]; simp

/-! ## Lemmas: the seen set -/

theorem rangeKey_mem (n : Nat) (k0 : String) (ks : List String) :
    (k0 :: ks).getD (n % (k0 :: ks).length) k0 ∈ k0 :: ks := by
  have hlt : n % (k0 :: ks).length < (k0 :: ks).length :=
    Nat.mod_lt _ (by simp)
  rw [List.getD_eq_getElem _ _ hlt]
  exact List.getElem_mem hlt

/-- The eviction loop leaves at most 1000 keys. -/
theorem evictLoop_length (pick : Nat → Nat) (fuel i : Nat) (m : List String)
    (h : m.length ≤ fuel) : (evictLoop pick fuel i m).length ≤ 1000 := by
  induction fuel generalizing i m with
  | zero =>
    have : m = [] := List.length_eq_zero.1 (Nat.le_zero.1 h)
    simp [evictLoop, this]
  | succ fuel ih =>
    cases m with
    | nil => simp [evictLoop]
    | cons k0 ks =>
      simp only [evictLoop]
      split
      · assumption
      · apply ih
        rw [List.length_erase_of_mem (rangeKey_mem _ k0 ks)]
        simp only [List.length_cons] at h ⊢
        omega

/-- The eviction loop only deletes keys. -/
theorem evictLoop_sublist (pick : Nat → Nat) (fuel i : Nat) (m : List String) :
    (evictLoop pick fuel i m).Sublist m := by
  induction fuel generalizing i m with
  | zero => simp [evictLoop]
  | succ fuel ih =>
    cases m with
    | nil => simp [evictLoop]
    | cons k0 ks =>
      simp only [evictLoop]
      split
      · exact List.erase_sublist _ _
      · exact (ih _ _).trans (List.erase_sublist _ _)

/-- After the dedup step the seen set holds at most 1000 keys. -/
theorem dedupStep_length (pick : Nat → Nat) (seen : List String) (id : String)
    (h : seen.length ≤ 1000) : (dedupStep pick seen id).2.length ≤ 1000 := by
  unfold dedupStep
  split
  · exact h
  · simp only
    split
    · exact evictLoop_length _ _ _ _ (le_refl _)
    · rename_i hle
      exact Nat.le_of_not_lt hle

/-- The dedup step keeps the keys distinct. -/
theorem dedupStep_nodup (pick : Nat → Nat) (seen : List String) (id : String)
    (h : seen.Nodup) : (dedupStep pick seen id).2.Nodup := by
  have hset : (mapSet seen id).Nodup := by
    unfold mapSet
    split
    · exact h
    · rename_i hid
      exact List.Nodup.append h (List.nodup_singleton id) (by simpa using hid)
  unfold dedupStep
  split
  · exact h
  · simp only
    split
    · exact List.Nodup.sublist (evictLoop_sublist _ _ _ _) hset
    · exact hset

/-- Below capacity the dedup step of a new identifier appends it. -/
theorem dedupStep_below (pick : Nat → Nat) (seen : List String) (id : String)
    (hid : id ∉ seen) (h : seen.length < 1000) :
    dedupStep pick seen id = (false, seen ++ [id]) := by
  have hlen : ¬ (seen ++ [id]).length > 1000 := by simp; omega
  simp [dedupStep, mapSet, hid]
  omega

/-- The dedup step of an identifier of the seen set changes nothing. -/
theorem dedupStep_mem (pick : Nat → Nat) (seen : List String) (id : String)
    (hid : id ∈ seen) : dedupStep pick seen id = (true, seen) := by
  simp [dedupStep, hid]

/-- The first component of the dedup step is the membership test. -/
theorem dedupStep_fst (pick : Nat → Nat) (seen : List String) (id : String) :
    (dedupStep pick seen id).1 = decide (id ∈ seen) := by
  unfold dedupStep
  split
  · simp [*]
  · simp only
    split <;> simp [*]

/-! ## Lemmas: what the loops emit -/

@[simp] theorem markSeen_trace (env : Env) (st : SyncState) (id : String) :
    (markSeen env st id).2.trace =
      st.trace ++ [Action.dedup id (markSeen env st id).2.seen] := rfl

@[simp] theorem markSeen_since (env : Env) (st : SyncState) (id : String) :
    (markSeen env st id).2.since = st.since := rfl

theorem markSeen_seen (env : Env) (st : SyncState) (id : String) :
    (markSeen env st id).2.seen =
      (dedupStep (env.rangePick (dedupCount st.trace)) st.seen id).2 := rfl

theorem markSeen_fst (env : Env) (st : SyncState) (id : String) :
    (markSeen env st id).1 = decide (id ∈ st.seen) := by
  simp [markSeen, dedupStep_fst]

theorem markSeen_length (env : Env) (st : SyncState) (id : String)
    (h : st.seen.length ≤ 1000) : (markSeen env st id).2.seen.length ≤ 1000 :=
  dedupStep_length _ _ _ h

/-- The guard of line 171 is the negation of `isTextMessage`. -/
theorem isTextMessage_of_not {ev : MatrixEvent}
    (h : ¬(ev.EventID = "" ∨ ev.Typ ≠ "m.room.message" ∨ ev.Content.MsgType ≠ "m.text")) :
    isTextMessage ev = true := by
  simp only [isTextMessage, decide_eq_true_eq]
  simp only [not_or, not_not] at h
  exact h

theorem not_isTextMessage_of {ev : MatrixEvent}
    (h : ev.EventID = "" ∨ ev.Typ ≠ "m.room.message" ∨ ev.Content.MsgType ≠ "m.text") :
    isTextMessage ev = false := by
  simp only [isTextMessage, decide_eq_false_iff_not]
  rintro ⟨h1, h2, h3⟩
  rcases h with h | h | h
  · exact h1 h
  · exact h h2
  · exact h h3

/-- The guard of line 192 is the negation of `fromHuman`. -/
theorem fromHuman_of_not {c : Client} {ev : MatrixEvent}
    (h : ¬(ev.Sender = c.BotUserID ∨ ev.Sender ≠ c.HumanUserID)) :
    fromHuman c ev = true := by
  simp only [fromHuman, decide_eq_true_eq]
  simp only [not_or, not_not] at h
  exact ⟨h.2, h.1⟩

theorem not_fromHuman_of {c : Client} {ev : MatrixEvent}
    (h : ev.Sender = c.BotUserID ∨ ev.Sender ≠ c.HumanUserID) :
    fromHuman c ev = false := by
  simp only [fromHuman, decide_eq_false_iff_not]
  rintro ⟨h1, h2⟩
  rcases h with h | h
  · exact h2 h
  · exact h h1

/-- Every action of the trace after the timeline loop is an action of the trace
before it, a dedup step that leaves at most 1000 keys, or the yield of a text
message of the timeline sent by the human and not by the bot. -/
theorem timelineLoop_forall (c : Client) (env : Env) (Q : Action → Prop) (B : Prop)
    (evs : List MatrixEvent) (st : SyncState)
    (hd : ∀ id s, (B → s.length ≤ 1000) → Q (Action.dedup id s))
    (hy : ∀ ev ∈ evs, isTextMessage ev = true → fromHuman c ev = true →
      Q (Action.yieldEvent ev))
    (hseen : B → st.seen.length ≤ 1000) (htr : ∀ a ∈ st.trace, Q a) :
    (∀ a ∈ (timelineLoop c env evs st).1.trace, Q a) ∧
      (B → (timelineLoop c env evs st).1.seen.length ≤ 1000) := by
  induction evs generalizing st with
  | nil => exact ⟨htr, hseen⟩
  | cons ev rest ih =>
    have hy2 : ∀ e ∈ rest, isTextMessage e = true → fromHuman c e = true →
        Q (Action.yieldEvent e) := fun e he => hy e (List.mem_cons_of_mem _ he)
    have hlen : B → (markSeen env st ev.EventID).2.seen.length ≤ 1000 :=
      fun hb => markSeen_length env st ev.EventID (hseen hb)
    have htr1 : ∀ a ∈ (markSeen env st ev.EventID).2.trace, Q a := by
      intro a ha
      rw [markSeen_trace] at ha
      rcases List.mem_append.1 ha with h | h
      · exact htr a h
      · rw [List.mem_singleton.1 h]; exact hd _ _ hlen
    simp only [timelineLoop]
    split
    · exact ih st hy2 hseen htr
    · rename_i htext
      split
      · exact ih _ hy2 hlen htr1
      · split
        · exact ih _ hy2 hlen htr1
        · rename_i hsender
          have hq : Q (Action.yieldEvent ev) :=
            hy ev (List.mem_cons_self _ _) (isTextMessage_of_not htext)
              (fromHuman_of_not hsender)
          have htr2 : ∀ a ∈ ((markSeen env st ev.EventID).2.emit
              (Action.yieldEvent ev)).trace, Q a := by
            intro a ha
            rcases List.mem_append.1 ha with h | h
            · exact htr1 a h
            · rw [List.mem_singleton.1 h]; exact hq
          split
          · exact ih _ hy2 hlen htr2
          · exact ⟨htr2, hlen⟩

/-- What one iteration of the loop adds to the trace. -/
theorem iteration_forall (c : Client) (env : Env) (Q : Action → Prop) (B : Prop)
    (res : PollResult) (st : SyncState)
    (hj : ∀ rid e, Q (Action.join rid e)) (hs : Q (Action.sleep 2000))
    (hd : ∀ id s, (B → s.length ≤ 1000) → Q (Action.dedup id s))
    (he : ∀ e, res = Except.error e → Q (Action.yieldError e))
    (hy : ∀ resp, res = Except.ok resp → ∀ ev ∈ roomEvents c resp,
      isTextMessage ev = true → fromHuman c ev = true → Q (Action.yieldEvent ev))
    (hseen : B → st.seen.length ≤ 1000) (htr : ∀ a ∈ st.trace, Q a) :
    (∀ a ∈ (iteration c env res st).1.trace, Q a) ∧
      (B → (iteration c env res st).1.seen.length ≤ 1000) := by
  cases res with
  | error err =>
    simp only [iteration]
    have h1 : ∀ a ∈ st.trace ++ [Action.yieldError err], Q a := by
      intro a ha
      rcases List.mem_append.1 ha with h | h
      · exact htr a h
      · rw [List.mem_singleton.1 h]; exact he err rfl
    split
    · refine ⟨?_, hseen⟩
      intro a ha
      rcases List.mem_append.1 ha with h | h
      · exact h1 a h
      · rw [List.mem_singleton.1 h]; exact hs
    · exact ⟨h1, hseen⟩
  | ok resp =>
    simp only [iteration]
    obtain ⟨suf, h1, h2, _, h4⟩ :=
      joinLoop_spec env resp.Rooms.Invite { st with since := resp.NextBatch }
    have hseen3 : B → (joinLoop env resp.Rooms.Invite
        { st with since := resp.NextBatch }).seen.length ≤ 1000 := by
      rw [h4]; exact hseen
    have htr3 : ∀ a ∈ (joinLoop env resp.Rooms.Invite
        { st with since := resp.NextBatch }).trace, Q a := by
      intro a ha
      rw [h1] at ha
      rcases List.mem_append.1 ha with h | h
      · exact htr a h
      · obtain ⟨rid, e, rfl⟩ := h2 a h
        exact hj rid e
    have hy1 := hy resp rfl
    unfold roomEvents at hy1
    split
    · exact ⟨htr3, hseen3⟩
    · rename_i room hroom
      rw [hroom] at hy1
      exact timelineLoop_forall c env Q B _ _ hd hy1 hseen3 htr3

/-- What the steady-state loop adds to the trace. -/
theorem steadyLoop_forall (c : Client) (env : Env) (Q : Action → Prop) (B : Prop)
    (rest : List PollResult) (st : SyncState)
    (hp : ∀ s, Q (Action.poll s 30000))
    (hj : ∀ rid e, Q (Action.join rid e)) (hs : Q (Action.sleep 2000))
    (hd : ∀ id s, (B → s.length ≤ 1000) → Q (Action.dedup id s))
    (he : ∀ e, Except.error e ∈ rest → Q (Action.yieldError e))
    (hy : ∀ ev ∈ steadyEvents c rest,
      isTextMessage ev = true → fromHuman c ev = true → Q (Action.yieldEvent ev))
    (hseen : B → st.seen.length ≤ 1000) (htr : ∀ a ∈ st.trace, Q a) :
    (∀ a ∈ (steadyLoop c env rest st).1.trace, Q a) ∧
      (B → (steadyLoop c env rest st).1.seen.length ≤ 1000) := by
  have hemit : ∀ a ∈ (st.emit (Action.poll st.since 30000)).trace, Q a := by
    intro a ha
    rcases List.mem_append.1 ha with h | h
    · exact htr a h
    · rw [List.mem_singleton.1 h]; exact hp _
  induction rest generalizing st with
  | nil =>
    simp only [steadyLoop]
    split
    · exact ⟨htr, hseen⟩
    · exact ⟨hemit, hseen⟩
  | cons res rest ih =>
    simp only [steadyLoop]
    split
    · exact ⟨htr, hseen⟩
    · have hit := iteration_forall c env Q B res (st.emit (Action.poll st.since 30000)) hj hs hd
        (fun e h => he e (by rw [h]; exact List.mem_cons_self _ _))
        (fun resp h ev hev => hy ev (by
          rw [h]; simp only [steadyEvents]; exact List.mem_append_left _ hev))
        hseen hemit
      split
      · apply ih _ (fun e h => he e (List.mem_cons_of_mem _ h)) _ hit.2 hit.1
        · intro a ha
          rcases List.mem_append.1 ha with h | h
          · exact hit.1 a h
          · rw [List.mem_singleton.1 h]; exact hp _
        · intro ev hev
          apply hy ev
          cases res with
          | error e => exact hev
          | ok resp => simp only [steadyEvents]; exact List.mem_append_right _ hev
      · exact hit

/-- What a run of `Sync` puts in the trace. -/
theorem Sync_forall (c : Client) (env : Env) (Q : Action → Prop) (B : Prop)
    (polls : List PollResult)
    (hb : Q (Action.poll "" 0)) (hp : ∀ s, Q (Action.poll s 30000))
    (hj : ∀ rid e, Q (Action.join rid e)) (hs : Q (Action.sleep 2000))
    (hd : ∀ id s, (B → s.length ≤ 1000) → Q (Action.dedup id s))
    (he : ∀ e, Except.error e ∈ polls → Q (Action.yieldError e))
    (hy : ∀ ev ∈ steadyEvents c polls.tail,
      isTextMessage ev = true → fromHuman c ev = true → Q (Action.yieldEvent ev))
    (hseen : B → c.seen.length ≤ 1000) :
    (∀ a ∈ (Sync c env polls).1.trace, Q a) ∧
      (B → (Sync c env polls).1.seen.length ≤ 1000) := by
  cases polls with
  | nil =>
    refine ⟨?_, hseen⟩
    intro a ha
    simp only [Sync, List.mem_singleton] at ha
    rw [ha]; exact hb
  | cons res rest =>
    cases res with
    | error err =>
      refine ⟨?_, hseen⟩
      intro a ha
      simp only [Sync, emit_trace, List.mem_append, List.mem_singleton] at ha
      rcases ha with h | h
      · rw [h]; exact hb
      · rw [h]; exact he err (List.mem_cons_self _ _)
    | ok boot =>
      simp only [Sync]
      apply steadyLoop_forall c env Q B rest _ hp hj hs hd
        (fun e h => he e (List.mem_cons_of_mem _ h)) hy hseen
      intro a ha
      simp only [List.mem_singleton] at ha
      rw [ha]; exact hb

/-! ## Lemmas: how the loops extend the trace -/

theorem pollCalls_eq_nil (l : List Action)
    (h : ∀ a ∈ l, ∀ s t, a ≠ Action.poll s t) : pollCalls l = [] := by
  induction l with
  | nil => rfl
  | cons x xs ih =>
    have hx := h x (List.mem_cons_self _ _)
    have hxs := ih (fun a ha => h a (List.mem_cons_of_mem _ ha))
    cases x <;> simp_all [pollCalls]

/-- The timeline loop appends dedup steps and event yields to the trace and
leaves the token alone. -/
theorem timelineLoop_ext (c : Client) (env : Env) (evs : List MatrixEvent)
    (st : SyncState) :
    ∃ suf, (timelineLoop c env evs st).1.trace = st.trace ++ suf ∧
      (∀ a ∈ suf, (∃ id s, a = Action.dedup id s) ∨ ∃ ev, a = Action.yieldEvent ev) ∧
      (timelineLoop c env evs st).1.since = st.since ∧
      ((timelineLoop c env evs st).2 = Status.running ∨
        (timelineLoop c env evs st).2 = Status.stopped) := by
  induction evs generalizing st with
  | nil => exact ⟨[], by simp [timelineLoop]⟩
  | cons ev rest ih =>
    have hstep : ∀ st2 : SyncState, st2.trace = st.trace ++
        [Action.dedup ev.EventID (markSeen env st ev.EventID).2.seen] →
        st2.since = st.since →
        ∃ suf, (timelineLoop c env rest st2).1.trace = st.trace ++ suf ∧
          (∀ a ∈ suf, (∃ id s, a = Action.dedup id s) ∨ ∃ ev, a = Action.yieldEvent ev) ∧
          (timelineLoop c env rest st2).1.since = st.since ∧
          ((timelineLoop c env rest st2).2 = Status.running ∨
            (timelineLoop c env rest st2).2 = Status.stopped) := by
      intro st2 e1 e2
      obtain ⟨suf, h1, h2, h3, h4⟩ := ih st2
      refine ⟨Action.dedup ev.EventID (markSeen env st ev.EventID).2.seen :: suf,
        ?_, ?_, ?_, h4⟩
      · rw [h1, e1]; simp
      · intro a ha
        rcases List.mem_cons.1 ha with h | h
        · exact Or.inl ⟨_, _, h⟩
        · exact h2 a h
      · rw [h3, e2]
    simp only [timelineLoop]
    split
    · exact ih st
    · split
      · exact hstep _ (markSeen_trace _ _ _) rfl
      · split
        · exact hstep _ (markSeen_trace _ _ _) rfl
        · split
          · obtain ⟨suf, h1, h2, h3, h4⟩ :=
              ih ((markSeen env st ev.EventID).2.emit (Action.yieldEvent ev))
            refine ⟨Action.dedup ev.EventID (markSeen env st ev.EventID).2.seen ::
              Action.yieldEvent ev :: suf, ?_, ?_, ?_, h4⟩
            · rw [h1]; simp
            · intro a ha
              rcases List.mem_cons.1 ha with h | h
              · exact Or.inl ⟨_, _, h⟩
              · rcases List.mem_cons.1 h with h | h
                · exact Or.inr ⟨_, h⟩
                · exact h2 a h
            · rw [h3]; rfl
          · refine ⟨[Action.dedup ev.EventID (markSeen env st ev.EventID).2.seen,
              Action.yieldEvent ev], ?_, ?_, rfl, Or.inr rfl⟩
            · simp
            · intro a ha
              rcases List.mem_cons.1 ha with h | h
              · exact Or.inl ⟨_, _, h⟩
              · exact Or.inr ⟨_, List.mem_singleton.1 h⟩

/-- An iteration appends no poll to the trace, and sets the token to the
`NextBatch` of a successful result. -/
theorem iteration_ext (c : Client) (env : Env) (res : PollResult) (st : SyncState) :
    ∃ suf, (iteration c env res st).1.trace = st.trace ++ suf ∧
      pollCalls suf = [] ∧
      (iteration c env res st).1.since = tokenAfter st.since [res] ∧
      ((iteration c env res st).2 = Status.running ∨
        (iteration c env res st).2 = Status.stopped) := by
  cases res with
  | error err =>
    simp only [iteration]
    split
    · exact ⟨[Action.yieldError err, Action.sleep 2000], by simp [pollCalls, tokenAfter]⟩
    · exact ⟨[Action.yieldError err], by simp [pollCalls, tokenAfter]⟩
  | ok resp =>
    simp only [iteration]
    obtain ⟨suf, h1, h2, h3, _⟩ :=
      joinLoop_spec env resp.Rooms.Invite { st with since := resp.NextBatch }
    have hsuf : pollCalls suf = [] := by
      apply pollCalls_eq_nil
      intro a ha s t h
      obtain ⟨rid, e, rfl⟩ := h2 a ha
      cases h
    split
    · exact ⟨suf, h1, hsuf, by rw [h3]; rfl, Or.inl rfl⟩
    · rename_i room _
      obtain ⟨suf2, g1, g2, g3, g4⟩ := timelineLoop_ext c env room.Timeline.Events
        (joinLoop env resp.Rooms.Invite { st with since := resp.NextBatch })
      refine ⟨suf ++ suf2, ?_, ?_, ?_, g4⟩
      · rw [g1, h1]; simp
      · rw [pollCalls_append, hsuf, List.nil_append]
        apply pollCalls_eq_nil
        intro a ha s t h
        rcases g2 a ha with ⟨id, s2, rfl⟩ | ⟨ev, rfl⟩ <;> cases h
      · rw [g3, h3]; rfl

/-- The steady-state loop extends the trace. -/
theorem steadyLoop_ext (c : Client) (env : Env) (rest : List PollResult)
    (st : SyncState) :
    ∃ suf, (steadyLoop c env rest st).1.trace = st.trace ++ suf := by
  induction rest generalizing st with
  | nil =>
    simp only [steadyLoop]
    split
    · exact ⟨[], by simp⟩
    · exact ⟨[_], rfl⟩
  | cons res rest ih =>
    simp only [steadyLoop]
    obtain ⟨suf, h1, _⟩ := iteration_ext c env res (st.emit (Action.poll st.since 30000))
    split
    · exact ⟨[], by simp⟩
    · split
      · obtain ⟨suf2, h2⟩ := ih (iteration c env res (st.emit (Action.poll st.since 30000))).1
        exact ⟨Action.poll st.since 30000 :: (suf ++ suf2), by rw [h2, h1]; simp⟩
      · exact ⟨Action.poll st.since 30000 :: suf, by rw [h1]; simp⟩

/-! ## Lemmas: the continuation token -/

theorem iteration_calls (c : Client) (env : Env) (res : PollResult) (st : SyncState) :
    pollCalls (iteration c env res st).1.trace = pollCalls st.trace := by
  obtain ⟨suf, h1, h2, _⟩ := iteration_ext c env res st
  rw [h1, pollCalls_append, h2, List.append_nil]

theorem tokenAfter_cons (since : String) (res : PollResult) (rest : List PollResult) :
    tokenAfter since (res :: rest) = tokenAfter (tokenAfter since [res]) rest := by
  cases res <;> rfl

/-- The calls that the steady-state loop adds: call number `k` of the loop
passes the token after the first `k` results, with timeout 30000. -/
theorem steadyLoop_calls (c : Client) (env : Env) (rest : List PollResult)
    (st : SyncState) (k : Nat) (p : String × Nat)
    (h : (pollCalls (steadyLoop c env rest st).1.trace)[(pollCalls st.trace).length + k]?
      = some p) :
    k ≤ rest.length ∧ p = (tokenAfter st.since (rest.take k), 30000) := by
  induction rest generalizing st k with
  | nil =>
    simp only [steadyLoop] at h
    split at h
    · simp only at h
      rw [List.getElem?_eq_none (by omega)] at h; cases h
    · rw [emit_trace, pollCalls_append] at h
      cases k with
      | zero => simpa [pollCalls, tokenAfter, eq_comm] using h
      | succ k =>
        rw [List.getElem?_append_right (by omega)] at h
        simp [pollCalls] at h
  | cons res rest ih =>
    simp only [steadyLoop] at h
    split at h
    · simp only at h
      rw [List.getElem?_eq_none (by omega)] at h; cases h
    · have hc := iteration_calls c env res (st.emit (Action.poll st.since 30000))
      rw [emit_trace, pollCalls_append] at hc
      have hlen : (pollCalls (iteration c env res
          (st.emit (Action.poll st.since 30000))).1.trace).length
          = (pollCalls st.trace).length + 1 := by
        rw [hc]; simp [pollCalls]
      obtain ⟨_, _, _, hsince, _⟩ :=
        iteration_ext c env res (st.emit (Action.poll st.since 30000))
      rw [emit_since] at hsince
      split at h
      · cases k with
        | zero =>
          obtain ⟨suf, hs⟩ := steadyLoop_ext c env rest
            (iteration c env res (st.emit (Action.poll st.since 30000))).1
          rw [hs, pollCalls_append, hc, List.append_assoc,
            List.getElem?_append_right (by omega)] at h
          simpa [pollCalls, tokenAfter, eq_comm] using h
        | succ k =>
          have h2 := ih (iteration c env res (st.emit (Action.poll st.since 30000))).1 k
            (by rw [hlen]; rw [← h]; congr 1; omega)
          refine ⟨by simp only [List.length_cons]; omega, ?_⟩
          rw [h2.2, hsince, List.take_succ_cons]
          conv_rhs => rw [tokenAfter_cons]
      · rw [hc] at h
        cases k with
        | zero => simpa [pollCalls, tokenAfter, eq_comm] using h
        | succ k =>
          rw [List.getElem?_append_right (by omega)] at h
          simp [pollCalls] at h

theorem tokenAfter_append (since : String) (l1 l2 : List PollResult) :
    tokenAfter since (l1 ++ l2) = tokenAfter (tokenAfter since l1) l2 := by
  induction l1 generalizing since with
  | nil => rfl
  | cons x xs ih => cases x <;> simp [tokenAfter, ih]

theorem tokenAfter_take_succ (since : String) (polls : List PollResult) (n : Nat)
    (res : PollResult) (h : polls[n]? = some res) :
    tokenAfter since (polls.take (n + 1)) = tokenAfter (tokenAfter since (polls.take n)) [res] := by
  rw [List.take_succ, h, tokenAfter_append]; rfl

/-- After an answered poll the token is the `NextBatch` of the last success:
there is one when the bootstrap call succeeded. -/
theorem tokenAfter_last_ok (since : String) (polls : List PollResult) (boot : SyncResponse)
    (h0 : polls[0]? = some (Except.ok boot)) (n : Nat) (hn : n < polls.length) :
    ∃ m r, m ≤ n ∧ polls[m]? = some (Except.ok r) ∧
      (∀ k, m < k → k ≤ n → ∃ e, polls[k]? = some (Except.error e)) ∧
      tokenAfter since (polls.take (n + 1)) = r.NextBatch := by
  induction n with
  | zero =>
    refine ⟨0, boot, le_refl _, h0, ?_, ?_⟩
    · intro k h1 h2; omega
    · rw [tokenAfter_take_succ since polls 0 _ h0]; rfl
  | succ n ih =>
    obtain ⟨m, r, hm, hr, herr, htok⟩ := ih (by omega)
    have hget : polls[n + 1]? = some polls[n + 1] := List.getElem?_eq_getElem hn
    rw [tokenAfter_take_succ since polls (n + 1) _ hget]
    cases hres : polls[n + 1] with
    | ok r2 =>
      rw [hres] at hget
      refine ⟨n + 1, r2, le_refl _, hget, ?_, rfl⟩
      intro k h1 h2; omega
    | error e =>
      rw [hres] at hget
      refine ⟨m, r, by omega, hr, ?_, ?_⟩
      · intro k h1 h2
        by_cases hk : k ≤ n
        · exact herr k h1 hk
        · have : k = n + 1 := by omega
          rw [this]; exact ⟨e, hget⟩
      · rw [htok]; rfl

/-- The calls of a run: the first is the bootstrap call; call number `k + 1`
is made only after a successful bootstrap and `k` further answers, with the
token after these answers and timeout 30000. -/
theorem Sync_calls (c : Client) (env : Env) (polls : List PollResult) :
    (pollCalls (Sync c env polls).1.trace)[0]? = some ("", 0) ∧
    ∀ k p, (pollCalls (Sync c env polls).1.trace)[k + 1]? = some p →
      (∃ boot, polls[0]? = some (Except.ok boot)) ∧ k + 1 ≤ polls.length ∧
        p = (tokenAfter "" (polls.take (k + 1)), 30000) := by
  cases polls with
  | nil => simp [Sync, pollCalls]
  | cons res rest =>
    cases res with
    | error err => simp [Sync, pollCalls]
    | ok boot =>
      simp only [Sync]
      constructor
      · obtain ⟨suf, hs⟩ := steadyLoop_ext c env rest
          { since := boot.NextBatch, seen := c.seen, trace := [Action.poll "" 0] }
        rw [hs]; simp [pollCalls]
      · intro k p h
        have h2 := steadyLoop_calls c env rest
          { since := boot.NextBatch, seen := c.seen, trace := [Action.poll "" 0] } k p
          (by rw [← h]; congr 1; simp [pollCalls]; omega)
        refine ⟨⟨boot, by simp⟩, by simp only [List.length_cons]; omega, ?_⟩
        rw [h2.2, List.take_succ_cons]; rfl

/-- C1: in `Client.Sync`, whenever call number `n + 1` of `syncOnce` is made
(the bootstrap call is number 0 and `polls[n]` is the answer to call `n`), call
`n` was answered; if it succeeded, the `since` of call `n + 1` is the
`NextBatch` it returned, whatever the batch held; if it failed, the `since` of
call `n + 1` is the `NextBatch` of the most recent successful call, which
exists. -/
theorem sync_since_is_last_next_batch (c : Client) (env : Env) (polls : List PollResult)
    (n : Nat) (h : n + 1 < (pollCalls (Sync c env polls).1.trace).length) :
    n < polls.length ∧
    (∀ r, polls[n]? = some (Except.ok r) →
      ((pollCalls (Sync c env polls).1.trace)[n + 1]?).map Prod.fst = some r.NextBatch) ∧
    (∀ e, polls[n]? = some (Except.error e) →
      ∃ m r, m < n ∧ polls[m]? = some (Except.ok r) ∧
        (∀ k, m < k → k ≤ n → ∃ e2, polls[k]? = some (Except.error e2)) ∧
        ((pollCalls (Sync c env polls).1.trace)[n + 1]?).map Prod.fst = some r.NextBatch) := by
  have hget := List.getElem?_eq_getElem h
  obtain ⟨⟨boot, hboot⟩, hlen, hp⟩ := (Sync_calls c env polls).2 n _ hget
  refine ⟨by omega, ?_, ?_⟩
  · intro r hr
    rw [hget, hp, Option.map_some', tokenAfter_take_succ "" polls n _ hr]
    rfl
  · intro e he
    obtain ⟨m, r, hm, hr, herr, htok⟩ := tokenAfter_last_ok "" polls boot hboot n (by omega)
    have hne : m ≠ n := by
      intro hmn
      rw [hmn, he] at hr
      cases hr
    refine ⟨m, r, by omega, hr, herr, ?_⟩
    rw [hget, hp, Option.map_some', htok]

/-- C1 on the scenario: call 3 fails, and call 4 passes "t2", the `NextBatch`
of call 2. -/
theorem sync_since_is_last_next_batch_witness :
    3 + 1 < (pollCalls (Sync exClient exEnv exPolls).1.trace).length ∧
    ∃ m r, m < 3 ∧ exPolls[m]? = some (Except.ok r) ∧
      (∀ k, m < k → k ≤ 3 → ∃ e2, exPolls[k]? = some (Except.error e2)) ∧
      ((pollCalls (Sync exClient exEnv exPolls).1.trace)[3 + 1]?).map Prod.fst
        = some r.NextBatch :=
  ⟨by decide,
    (sync_since_is_last_next_batch exClient exEnv exPolls 3 (by decide)).2.2
      "connection reset" rfl⟩

/-- C2: every event that `Client.Sync` yields has a non-empty `EventID`, `Type`
"m.room.message", `MsgType` "m.text" and a `Sender` equal to `HumanUserID` and
different from `BotUserID`, whatever the poll results, the consumer and the
rest of the environment. -/
theorem sync_yields_human_text_only (c : Client) (env : Env) (polls : List PollResult)
    (ev : MatrixEvent) (h : Action.yieldEvent ev ∈ (Sync c env polls).1.trace) :
    ev.EventID ≠ "" ∧ ev.Typ = "m.room.message" ∧ ev.Content.MsgType = "m.text" ∧
      ev.Sender = c.HumanUserID ∧ ev.Sender ≠ c.BotUserID := by
  have hall := (Sync_forall c env
    (fun a => ∀ e, a = Action.yieldEvent e →
      e.EventID ≠ "" ∧ e.Typ = "m.room.message" ∧ e.Content.MsgType = "m.text" ∧
        e.Sender = c.HumanUserID ∧ e.Sender ≠ c.BotUserID)
    False polls
    (fun e h => by cases h) (fun s e h => by cases h) (fun rid e2 e h => by cases h)
    (fun e h => by cases h) (fun id s _ e h => by cases h) (fun e2 _ e h => by cases h)
    (fun e _ ht hh e2 h2 => by
      cases h2
      simp only [isTextMessage, decide_eq_true_eq] at ht
      simp only [fromHuman, decide_eq_true_eq] at hh
      exact ⟨ht.1, ht.2.1, ht.2.2, hh.1, hh.2⟩)
    (fun hf => hf.elim)).1
  exact hall _ h ev rfl

/-- C2 on the scenario: the event "e1" is yielded, and it is a text message of
the human. -/
theorem sync_yields_human_text_only_witness :
    Action.yieldEvent (exEvent "e1" "@jni:example.org") ∈ (Sync exClient exEnv exPolls).1.trace ∧
    ((exEvent "e1" "@jni:example.org").EventID ≠ "" ∧
      (exEvent "e1" "@jni:example.org").Typ = "m.room.message" ∧
      (exEvent "e1" "@jni:example.org").Content.MsgType = "m.text" ∧
      (exEvent "e1" "@jni:example.org").Sender = exClient.HumanUserID ∧
      (exEvent "e1" "@jni:example.org").Sender ≠ exClient.BotUserID) :=
  ⟨by decide, sync_yields_human_text_only exClient exEnv exPolls _ (by decide)⟩

theorem NewClient_seen (opts : List ClientOption)
    (hopts : ∀ o ∈ opts, ∀ c : Client, (o c).seen = c.seen) : (NewClient opts).seen = [] := by
  have key : ∀ (l : List ClientOption) (c0 : Client),
      (∀ o ∈ l, ∀ c : Client, (o c).seen = c.seen) →
      (l.foldl (fun c opt => opt c) c0).seen = c0.seen := by
    intro l
    induction l with
    | nil => intro c0 _; rfl
    | cons o os ih =>
      intro c0 hl
      rw [List.foldl_cons, ih _ (fun o2 h2 => hl o2 (List.mem_cons_of_mem _ h2))]
      exact hl o (List.mem_cons_self _ _) c0
  exact key opts _ hopts

theorem Sync_seen_length (c : Client) (env : Env) (polls : List PollResult)
    (h : c.seen.length ≤ 1000) : (Sync c env polls).1.seen.length ≤ 1000 :=
  (Sync_forall c env (fun _ => True) True polls trivial (fun _ => trivial)
    (fun _ _ => trivial) trivial (fun _ _ _ => trivial) (fun _ _ => trivial)
    (fun _ _ _ _ => trivial) (fun _ => h)).2 trivial

theorem clientAfter_runs_seen_length (earlier : List (Env × List PollResult)) (c0 : Client)
    (h : c0.seen.length ≤ 1000) :
    (earlier.foldl (fun c r => clientAfter c r.1 r.2) c0).seen.length ≤ 1000 := by
  induction earlier generalizing c0 with
  | nil => exact h
  | cons r rs ih =>
    rw [List.foldl_cons]
    exact ih _ (Sync_seen_length c0 r.1 r.2 h)

/-- C8: take a client built by `NewClient` (with options that, like the four of
the package, leave the unexported `seen` map alone) and any number of earlier
runs of `Client.Sync` on it.  In a run of `Client.Sync` on this client the seen
set holds at most 1000 identifiers after the dedup step of every timeline
event, and at the end of the run, whatever order the eviction's `range`
takes. -/
theorem sync_seen_at_most_1000 (opts : List ClientOption)
    (hopts : ∀ o ∈ opts, ∀ c : Client, (o c).seen = c.seen)
    (earlier : List (Env × List PollResult)) (env : Env) (polls : List PollResult) :
    (∀ id s, Action.dedup id s ∈
        (Sync (earlier.foldl (fun c r => clientAfter c r.1 r.2) (NewClient opts))
          env polls).1.trace → s.length ≤ 1000) ∧
    (Sync (earlier.foldl (fun c r => clientAfter c r.1 r.2) (NewClient opts))
      env polls).1.seen.length ≤ 1000 := by
  have hc : (earlier.foldl (fun c r => clientAfter c r.1 r.2) (NewClient opts)).seen.length
      ≤ 1000 :=
    clientAfter_runs_seen_length earlier _ (by rw [NewClient_seen opts hopts]; simp)
  have hall := Sync_forall (earlier.foldl (fun c r => clientAfter c r.1 r.2) (NewClient opts))
    env (fun a => ∀ id s, a = Action.dedup id s → s.length ≤ 1000)
    True polls
    (fun id s h => by cases h) (fun s0 id s h => by cases h) (fun rid e id s h => by cases h)
    (fun id s h => by cases h) (fun id s hs id2 s2 h => by cases h; exact hs trivial)
    (fun e _ id s h => by cases h) (fun e _ _ _ id s h => by cases h)
    (fun _ => hc)
  exact ⟨fun id s h => hall.1 _ h id s rfl, hall.2 trivial⟩

/-- C8 on the scenario run twice, with the four options of the package. -/
theorem sync_seen_at_most_1000_witness :
    (∀ o ∈ [WithHomeserver "https://example.org", WithAccessToken "secret",
        WithRoomID "!room:example.org", WithHumanUserID "@jni:example.org"],
      ∀ c : Client, (o c).seen = c.seen) ∧
    ((∀ id s, Action.dedup id s ∈
        (Sync ([(exEnv, exPolls)].foldl (fun c r => clientAfter c r.1 r.2)
          (NewClient [WithHomeserver "https://example.org", WithAccessToken "secret",
            WithRoomID "!room:example.org", WithHumanUserID "@jni:example.org"]))
          exEnv exPolls).1.trace → s.length ≤ 1000) ∧
      (Sync ([(exEnv, exPolls)].foldl (fun c r => clientAfter c r.1 r.2)
          (NewClient [WithHomeserver "https://example.org", WithAccessToken "secret",
            WithRoomID "!room:example.org", WithHumanUserID "@jni:example.org"]))
        exEnv exPolls).1.seen.length ≤ 1000) :=
  have hopts : ∀ o ∈ [WithHomeserver "https://example.org", WithAccessToken "secret",
      WithRoomID "!room:example.org", WithHumanUserID "@jni:example.org"],
      ∀ c : Client, (o c).seen = c.seen := by
    intro o ho c
    simp only [List.mem_cons, List.mem_singleton, List.not_mem_nil, or_false] at ho
    rcases ho with h | h | h | h <;> rw [h] <;> rfl
  ⟨hopts, sync_seen_at_most_1000 _ hopts [(exEnv, exPolls)] exEnv exPolls⟩

theorem Sync_head (c : Client) (env : Env) (polls : List PollResult) :
    (Sync c env polls).1.trace.head? = some (Action.poll "" 0) := by
  cases polls with
  | nil => rfl
  | cons res rest =>
    cases res with
    | error err => rfl
    | ok boot =>
      obtain ⟨suf, hs⟩ := steadyLoop_ext c env rest
        { since := boot.NextBatch, seen := c.seen, trace := [Action.poll "" 0] }
      simp only [Sync, hs]
      rfl

/-- C6: the first thing a run of `Client.Sync` does is the bootstrap call
`syncOnce(ctx, "", 0)`; every later `syncOnce` call has timeout 30000; every
event yielded is a timeline event of the configured room in a successful answer
to a steady-state poll (`polls.tail`: `polls.head` answers the bootstrap call);
the run depends on the bootstrap response through its `NextBatch` only; and the
bootstrap response by itself leaves the seen set as it was, stores `NextBatch`
and causes no join, dedup step or yield; the request of the bootstrap call has
`timeout=0` and no `since` parameter. -/
theorem sync_bootstrap_first_and_discarded (c : Client) (env : Env)
    (polls : List PollResult) :
    (Sync c env polls).1.trace.head? = some (Action.poll "" 0) ∧
    (∀ k p, (pollCalls (Sync c env polls).1.trace)[k + 1]? = some p → p.2 = 30000) ∧
    (∀ ev, Action.yieldEvent ev ∈ (Sync c env polls).1.trace →
      ev ∈ steadyEvents c polls.tail) ∧
    (∀ boot boot2 rest, boot.NextBatch = boot2.NextBatch →
      Sync c env (Except.ok boot :: rest) = Sync c env (Except.ok boot2 :: rest)) ∧
    (∀ boot, (Sync c env [Except.ok boot]).1.seen = c.seen ∧
      (Sync c env [Except.ok boot]).1.since = boot.NextBatch ∧
      (Sync c env [Except.ok boot]).1.trace = Action.poll "" 0 ::
        (if env.cancelled 1 then [] else [Action.poll boot.NextBatch 30000])) ∧
    (∀ escape : String → String, syncOncePath escape "" 0 =
      "/_matrix/client/v3/sync?timeout=0&set_presence=offline&filter=" ++
        escape syncFilter) := by
  refine ⟨Sync_head c env polls, ?_, ?_, ?_, ?_, fun _ => rfl⟩
  · intro k p h
    rw [((Sync_calls c env polls).2 k p h).2.2]
  · intro ev h
    have hall := (Sync_forall c env
      (fun a => ∀ e, a = Action.yieldEvent e → e ∈ steadyEvents c polls.tail)
      False polls
      (fun e h => by cases h) (fun s e h => by cases h) (fun rid e2 e h => by cases h)
      (fun e h => by cases h) (fun id s _ e h => by cases h) (fun e2 _ e h => by cases h)
      (fun e he _ _ e2 h2 => by cases h2; exact he)
      (fun hf => hf.elim)).1
    exact hall _ h ev rfl
  · intro boot boot2 rest h
    simp only [Sync, h]
  · intro boot
    simp only [Sync, steadyLoop, pollCalls, List.length_cons, List.length_nil]
    split <;> simp_all

/-! ## Lemmas: the stop signal -/

theorem stopsAtRefusal_snoc (env : Env) (tr : List Action) (b : Action)
    (h1 : StopsAtRefusal env tr) (h2 : LastAccepted env tr) :
    StopsAtRefusal env (tr ++ [b]) := by
  intro pre a post heq hy hc
  rcases List.eq_nil_or_concat post with hp | ⟨post2, x, hp⟩
  · exact hp
  · exfalso
    rw [hp, List.concat_eq_append, ← List.cons_append, ← List.append_assoc] at heq
    have htr : tr = pre ++ a :: post2 := (List.append_inj_left' heq rfl)
    have hnil : post2 = [] := h1 pre a post2 htr hy hc
    rw [hnil] at htr
    have := h2 pre a htr hy
    rw [htr, hc] at this
    cases this

theorem lastAccepted_snoc_other (env : Env) (tr : List Action) (b : Action)
    (hb : b.isYield = false) : LastAccepted env (tr ++ [b]) := by
  intro pre a heq hy
  have := List.append_inj_right' heq rfl
  simp only [List.cons.injEq, and_true] at this
  rw [this, hy] at hb
  cases hb

theorem lastAccepted_snoc_yield (env : Env) (tr : List Action) (b : Action)
    (hb : env.consumer (yields (tr ++ [b])) = true) : LastAccepted env (tr ++ [b]) :=
  fun _ _ _ _ => hb

theorem joinLoop_stops (env : Env) (rids : List String) (st : SyncState)
    (h1 : StopsAtRefusal env st.trace) (h2 : LastAccepted env st.trace) :
    StopsAtRefusal env (joinLoop env rids st).trace ∧
      LastAccepted env (joinLoop env rids st).trace := by
  induction rids generalizing st with
  | nil => exact ⟨h1, h2⟩
  | cons rid rest ih =>
    rw [joinLoop]
    exact ih _ (stopsAtRefusal_snoc env _ _ h1 h2) (lastAccepted_snoc_other env _ _ rfl)

theorem timelineLoop_stops (c : Client) (env : Env) (evs : List MatrixEvent)
    (st : SyncState)
    (h1 : StopsAtRefusal env st.trace) (h2 : LastAccepted env st.trace) :
    StopsAtRefusal env (timelineLoop c env evs st).1.trace ∧
      ((timelineLoop c env evs st).2 = Status.running →
        LastAccepted env (timelineLoop c env evs st).1.trace) := by
  induction evs generalizing st with
  | nil => exact ⟨h1, fun _ => h2⟩
  | cons ev rest ih =>
    have g1 : StopsAtRefusal env (markSeen env st ev.EventID).2.trace :=
      stopsAtRefusal_snoc env _ _ h1 h2
    have g2 : LastAccepted env (markSeen env st ev.EventID).2.trace :=
      lastAccepted_snoc_other env _ _ rfl
    have g3 : StopsAtRefusal env
        ((markSeen env st ev.EventID).2.emit (Action.yieldEvent ev)).trace :=
      stopsAtRefusal_snoc env _ _ g1 g2
    simp only [timelineLoop]
    split
    · exact ih st h1 h2
    · split
      · exact ih _ g1 g2
      · split
        · exact ih _ g1 g2
        · split
          · rename_i hc
            exact ih _ g3 (lastAccepted_snoc_yield env _ _ hc)
          · exact ⟨g3, fun h => by cases h⟩

theorem iteration_stops (c : Client) (env : Env) (res : PollResult) (st : SyncState)
    (h1 : StopsAtRefusal env st.trace) (h2 : LastAccepted env st.trace) :
    StopsAtRefusal env (iteration c env res st).1.trace ∧
      ((iteration c env res st).2 = Status.running →
        LastAccepted env (iteration c env res st).1.trace) := by
  cases res with
  | error err =>
    have g1 : StopsAtRefusal env (st.emit (Action.yieldError err)).trace :=
      stopsAtRefusal_snoc env _ _ h1 h2
    simp only [iteration]
    split
    · rename_i hc
      exact ⟨stopsAtRefusal_snoc env _ _ g1 (lastAccepted_snoc_yield env _ _ hc),
        fun _ => lastAccepted_snoc_other env _ _ rfl⟩
    · exact ⟨g1, fun h => by cases h⟩
  | ok resp =>
    simp only [iteration]
    have g := joinLoop_stops env resp.Rooms.Invite { st with since := resp.NextBatch } h1 h2
    split
    · exact ⟨g.1, fun _ => g.2⟩
    · exact timelineLoop_stops c env _ _ g.1 g.2

theorem steadyLoop_stops (c : Client) (env : Env) (rest : List PollResult)
    (st : SyncState)
    (h1 : StopsAtRefusal env st.trace) (h2 : LastAccepted env st.trace) :
    StopsAtRefusal env (steadyLoop c env rest st).1.trace := by
  induction rest generalizing st with
  | nil =>
    simp only [steadyLoop]
    split
    · exact h1
    · exact stopsAtRefusal_snoc env _ _ h1 h2
  | cons res rest ih =>
    simp only [steadyLoop]
    split
    · exact h1
    · have g := iteration_stops c env res (st.emit (Action.poll st.since 30000))
        (stopsAtRefusal_snoc env _ _ h1 h2) (lastAccepted_snoc_other env _ _ rfl)
      split
      · rename_i hr
        exact ih _ g.1 (g.2 hr)
      · exact g.1

theorem stopsAtRefusal_boot (env : Env) : StopsAtRefusal env [Action.poll "" 0] := by
  intro pre a post heq hy _
  cases pre with
  | nil =>
    simp only [List.nil_append, List.cons.injEq] at heq
    exact heq.2.symm
  | cons x xs =>
    simp only [List.cons_append, List.cons.injEq] at heq
    have := heq.2
    simp at this

/-- C7: whenever the consumer answers a yielded element, an event or an error,
with the stop signal, that yield is the last action of the run: no poll, no
join call, no dedup step, no sleep and no yield follows it. -/
theorem sync_stops_at_stop_signal (c : Client) (env : Env) (polls : List PollResult)
    (pre : List Action) (a : Action) (post : List Action)
    (htrace : (Sync c env polls).1.trace = pre ++ a :: post)
    (hyield : a.isYield = true)
    (hstop : env.consumer (yields (pre ++ [a])) = false) : post = [] := by
  have hb2 : LastAccepted env [Action.poll "" 0] :=
    lastAccepted_snoc_other env [] (Action.poll "" 0) rfl
  have key : StopsAtRefusal env (Sync c env polls).1.trace := by
    cases polls with
    | nil => exact stopsAtRefusal_boot env
    | cons res rest =>
      cases res with
      | error err => exact stopsAtRefusal_snoc env _ _ (stopsAtRefusal_boot env) hb2
      | ok boot => exact steadyLoop_stops c env rest _ (stopsAtRefusal_boot env) hb2
  exact key pre a post htrace hyield hstop

/-- C7 on the scenario with a consumer that stops at the second element: the
yield of "e2" is the last action. -/
theorem sync_stops_at_stop_signal_witness :
    (Sync exClient exStopEnv exPolls).1.trace =
      [Action.poll "" 0, Action.poll "t0" 30000,
        Action.dedup "e1" ["e1"], Action.yieldEvent (exEvent "e1" "@jni:example.org"),
        Action.dedup "e2" ["e1", "e2"]] ++
        Action.yieldEvent (exEvent "e2" "@jni:example.org") :: [] ∧
    (Action.yieldEvent (exEvent "e2" "@jni:example.org")).isYield = true ∧
    exStopEnv.consumer (yields ([Action.poll "" 0, Action.poll "t0" 30000,
        Action.dedup "e1" ["e1"], Action.yieldEvent (exEvent "e1" "@jni:example.org"),
        Action.dedup "e2" ["e1", "e2"]] ++
        [Action.yieldEvent (exEvent "e2" "@jni:example.org")])) = false ∧
    ([] : List Action) = [] :=
  ⟨by decide, rfl, by decide,
    sync_stops_at_stop_signal exClient exStopEnv exPolls
      [Action.poll "" 0, Action.poll "t0" 30000,
        Action.dedup "e1" ["e1"], Action.yieldEvent (exEvent "e1" "@jni:example.org"),
        Action.dedup "e2" ["e1", "e2"]]
      (Action.yieldEvent (exEvent "e2" "@jni:example.org")) [] (by decide) rfl (by decide)⟩

/-! ## Lemmas: join results -/

/-- C6 on the scenario: the event "e1" is yielded, and it is an event of the
answers to the steady-state polls; the second call has timeout 30000. -/
theorem sync_bootstrap_first_and_discarded_witness :
    (pollCalls (Sync exClient exEnv exPolls).1.trace)[0 + 1]? = some ("t0", 30000) ∧
    Action.yieldEvent (exEvent "e1" "@jni:example.org") ∈ (Sync exClient exEnv exPolls).1.trace ∧
    ("t0", 30000).2 = 30000 ∧
    exEvent "e1" "@jni:example.org" ∈ steadyEvents exClient exPolls.tail :=
  ⟨by decide, by decide,
    (sync_bootstrap_first_and_discarded exClient exEnv exPolls).2.1 0 ("t0", 30000) (by decide),
    (sync_bootstrap_first_and_discarded exClient exEnv exPolls).2.2.1 _ (by decide)⟩

theorem yields_map_withoutJoinResult (tr : List Action) :
    yields (tr.map Action.withoutJoinResult) = yields tr := by
  induction tr with
  | nil => rfl
  | cons x xs ih => cases x <;> simp [yields, Action.withoutJoinResult, ih]

theorem pollCalls_map_withoutJoinResult (tr : List Action) :
    pollCalls (tr.map Action.withoutJoinResult) = pollCalls tr := by
  induction tr with
  | nil => rfl
  | cons x xs ih => cases x <;> simp [pollCalls, Action.withoutJoinResult, ih]

theorem dedupCount_map_withoutJoinResult (tr : List Action) :
    dedupCount (tr.map Action.withoutJoinResult) = dedupCount tr := by
  induction tr with
  | nil => rfl
  | cons x xs ih => cases x <;> simp [dedupCount, Action.withoutJoinResult, ih]

theorem SameButJoins.yields_eq {st1 st2 : SyncState} (h : SameButJoins st1 st2) :
    yields st1.trace = yields st2.trace := by
  rw [← yields_map_withoutJoinResult st1.trace, h.2.2, yields_map_withoutJoinResult]

theorem SameButJoins.pollCalls_eq {st1 st2 : SyncState} (h : SameButJoins st1 st2) :
    pollCalls st1.trace = pollCalls st2.trace := by
  rw [← pollCalls_map_withoutJoinResult st1.trace, h.2.2, pollCalls_map_withoutJoinResult]

theorem SameButJoins.dedupCount_eq {st1 st2 : SyncState} (h : SameButJoins st1 st2) :
    dedupCount st1.trace = dedupCount st2.trace := by
  rw [← dedupCount_map_withoutJoinResult st1.trace, h.2.2, dedupCount_map_withoutJoinResult]

theorem SameButJoins.emit {st1 st2 : SyncState} (h : SameButJoins st1 st2)
    (a b : Action) (hab : a.withoutJoinResult = b.withoutJoinResult) :
    SameButJoins (st1.emit a) (st2.emit b) := by
  refine ⟨h.1, h.2.1, ?_⟩
  simp only [emit_trace, List.map_append, List.map_cons, List.map_nil, h.2.2, hab]

theorem joinLoop_same (e1 e2 : Env) (rids : List String) (st1 st2 : SyncState)
    (h : SameButJoins st1 st2) :
    SameButJoins (joinLoop e1 rids st1) (joinLoop e2 rids st2) := by
  induction rids generalizing st1 st2 with
  | nil => exact h
  | cons rid rest ih =>
    rw [joinLoop, joinLoop]
    exact ih _ _ (h.emit _ _ rfl)

theorem markSeen_same (e1 e2 : Env) (hp : e1.rangePick = e2.rangePick)
    (st1 st2 : SyncState) (h : SameButJoins st1 st2) (id : String) :
    (markSeen e1 st1 id).1 = (markSeen e2 st2 id).1 ∧
      SameButJoins (markSeen e1 st1 id).2 (markSeen e2 st2 id).2 := by
  obtain ⟨h1, h2, h3⟩ := h
  have hd := SameButJoins.dedupCount_eq ⟨h1, h2, h3⟩
  simp only [markSeen, SameButJoins, hp, h1, h2, hd, List.map_append, h3, and_self]

theorem timelineLoop_same (c : Client) (e1 e2 : Env)
    (hp : e1.rangePick = e2.rangePick) (hc : e1.consumer = e2.consumer)
    (evs : List MatrixEvent) (st1 st2 : SyncState) (h : SameButJoins st1 st2) :
    SameButJoins (timelineLoop c e1 evs st1).1 (timelineLoop c e2 evs st2).1 ∧
      (timelineLoop c e1 evs st1).2 = (timelineLoop c e2 evs st2).2 := by
  induction evs generalizing st1 st2 with
  | nil => exact ⟨h, rfl⟩
  | cons ev rest ih =>
    obtain ⟨hm1, hm2⟩ := markSeen_same e1 e2 hp st1 st2 h ev.EventID
    have hy := hm2.emit (Action.yieldEvent ev) (Action.yieldEvent ev) rfl
    simp only [timelineLoop, hm1, hc, hy.yields_eq]
    split
    · exact ih _ _ h
    · split
      · exact ih _ _ hm2
      · split
        · exact ih _ _ hm2
        · split
          · exact ih _ _ hy
          · exact ⟨hy, rfl⟩

theorem iteration_same (c : Client) (e1 e2 : Env)
    (hp : e1.rangePick = e2.rangePick) (hc : e1.consumer = e2.consumer)
    (res : PollResult) (st1 st2 : SyncState) (h : SameButJoins st1 st2) :
    SameButJoins (iteration c e1 res st1).1 (iteration c e2 res st2).1 ∧
      (iteration c e1 res st1).2 = (iteration c e2 res st2).2 := by
  cases res with
  | error err =>
    have hy := h.emit (Action.yieldError err) (Action.yieldError err) rfl
    simp only [iteration, hc, hy.yields_eq]
    split
    · exact ⟨hy.emit _ _ rfl, rfl⟩
    · exact ⟨hy, rfl⟩
  | ok resp =>
    have hj := joinLoop_same e1 e2 resp.Rooms.Invite
      { st1 with since := resp.NextBatch } { st2 with since := resp.NextBatch }
      ⟨rfl, h.2.1, h.2.2⟩
    simp only [iteration]
    split
    · exact ⟨hj, rfl⟩
    · exact timelineLoop_same c e1 e2 hp hc _ _ _ hj

theorem steadyLoop_same (c : Client) (e1 e2 : Env)
    (hp : e1.rangePick = e2.rangePick) (hc : e1.consumer = e2.consumer)
    (hx : e1.cancelled = e2.cancelled)
    (rest : List PollResult) (st1 st2 : SyncState) (h : SameButJoins st1 st2) :
    SameButJoins (steadyLoop c e1 rest st1).1 (steadyLoop c e2 rest st2).1 ∧
      (steadyLoop c e1 rest st1).2 = (steadyLoop c e2 rest st2).2 := by
  induction rest generalizing st1 st2 with
  | nil =>
    simp only [steadyLoop, hx, h.pollCalls_eq, h.1]
    split
    · exact ⟨h, rfl⟩
    · exact ⟨h.emit _ _ rfl, rfl⟩
  | cons res rest ih =>
    have hi := iteration_same c e1 e2 hp hc res
      (st1.emit (Action.poll st1.since 30000)) (st2.emit (Action.poll st2.since 30000))
      (h.emit _ _ (by rw [h.1]))
    simp only [steadyLoop, hx, h.pollCalls_eq, hi.2]
    split
    · exact ⟨h, rfl⟩
    · split
      · exact ih _ _ hi.1
      · exact hi

/-- C10: the results of the join calls have no effect on a run of
`Client.Sync`.  Two runs with the same poll results, consumer, cancellation and
map order, the second with any other results `j` of its `joinRoom` calls, end
in the same way with the same token and the same seen set, make the same
`syncOnce` calls with the same tokens, yield the same elements, and have the
same trace up to the recorded join results: a failed join neither yields an
error element nor ends the loop, as the run in which every join succeeds shows. -/
theorem sync_join_failures_swallowed (c : Client) (env : Env)
    (j : Nat → String → JoinResult) (polls : List PollResult) :
    (Sync c env polls).2 = (Sync c { env with joinResult := j } polls).2 ∧
    (Sync c env polls).1.since = (Sync c { env with joinResult := j } polls).1.since ∧
    (Sync c env polls).1.seen = (Sync c { env with joinResult := j } polls).1.seen ∧
    pollCalls (Sync c env polls).1.trace =
      pollCalls (Sync c { env with joinResult := j } polls).1.trace ∧
    yields (Sync c env polls).1.trace =
      yields (Sync c { env with joinResult := j } polls).1.trace ∧
    (Sync c env polls).1.trace.map Action.withoutJoinResult =
      (Sync c { env with joinResult := j } polls).1.trace.map Action.withoutJoinResult := by
  have key : SameButJoins (Sync c env polls).1 (Sync c { env with joinResult := j } polls).1 ∧
      (Sync c env polls).2 = (Sync c { env with joinResult := j } polls).2 := by
    cases polls with
    | nil => exact ⟨⟨rfl, rfl, rfl⟩, rfl⟩
    | cons res rest =>
      cases res with
      | error err => exact ⟨⟨rfl, rfl, rfl⟩, rfl⟩
      | ok boot =>
        exact steadyLoop_same c env { env with joinResult := j } rfl rfl rfl rest _ _
          ⟨rfl, rfl, rfl⟩
  exact ⟨key.2, key.1.1, key.1.2.1, key.1.pollCalls_eq, key.1.yields_eq, key.1.2.2⟩

/-! ## Lemmas: the dedup step at capacity -/

theorem evictLoop_succ (pick : Nat → Nat) (fuel i : Nat) (k0 : String)
    (ks : List String) :
    evictLoop pick (fuel + 1) i (k0 :: ks) =
      if ((k0 :: ks).erase ((k0 :: ks).getD (pick i % (k0 :: ks).length) k0)).length ≤ 1000
      then (k0 :: ks).erase ((k0 :: ks).getD (pick i % (k0 :: ks).length) k0)
      else evictLoop pick fuel (i + 1)
        ((k0 :: ks).erase ((k0 :: ks).getD (pick i % (k0 :: ks).length) k0)) := rfl

/-- With 1001 keys in the map the eviction loop deletes the first key that
`range` visits, and stops. -/
theorem evictLoop_one (pick : Nat → Nat) (i : Nat) (m : List String)
    (h : m.length = 1001) :
    ∃ k, m[pick i % 1001]? = some k ∧ evictLoop pick 1001 i m = m.erase k := by
  cases m with
  | nil => simp at h
  | cons k0 ks =>
    have hlt : pick i % 1001 < (k0 :: ks).length := by rw [h]; exact Nat.mod_lt _ (by omega)
    refine ⟨(k0 :: ks)[pick i % 1001], List.getElem?_eq_getElem hlt, ?_⟩
    have hk : (k0 :: ks).getD (pick i % (k0 :: ks).length) k0 = (k0 :: ks)[pick i % 1001] := by
      simp only [h]
      exact List.getD_eq_getElem _ _ hlt
    have hmem : (k0 :: ks)[pick i % 1001] ∈ k0 :: ks := List.getElem_mem hlt
    have hlen : ((k0 :: ks).erase (k0 :: ks)[pick i % 1001]).length ≤ 1000 := by
      rw [List.length_erase_of_mem hmem, h]
    refine (evictLoop_succ pick 1000 i k0 ks).trans ?_
    rw [hk, if_pos hlen]

/-- At capacity, when `range` visits the new key first, the dedup step leaves
the seen set as it was: the new identifier is deleted again. -/
theorem dedupStep_evicts_new (pick : Nat → Nat) (seen : List String) (id : String)
    (hlen : seen.length = 1000) (hid : id ∉ seen) (hpick : pick 0 % 1001 = 1000) :
    dedupStep pick seen id = (false, seen) := by
  have hl : (seen ++ [id]).length = 1001 := by simp [hlen]
  obtain ⟨k, hk, he⟩ := evictLoop_one pick 0 (seen ++ [id]) hl
  rw [hpick, List.getElem?_append_right (by omega), hlen] at hk
  simp only [Nat.sub_self, List.getElem?_cons_zero, Option.some.injEq] at hk
  subst hk
  have hgt : (seen ++ [id]).length > 1000 := by omega
  simp only [dedupStep, mapSet, if_neg hid, if_pos hgt, hl, he]
  rw [List.erase_append_right _ hid]
  simp

theorem exIds_length : exIds.length = 1000 := by
  simp [exIds]

theorem exIds_nodup : exIds.Nodup := by
  unfold exIds
  apply List.Nodup.map _ (List.nodup_range 1000)
  intro a b h
  have h2 := congrArg List.length (congrArg String.data h)
  simpa using h2

theorem x_not_mem_exIds : "x" ∉ exIds := by
  unfold exIds
  intro h
  obtain ⟨n, _, hn⟩ := List.mem_map.1 h
  have h2 : (String.mk (List.replicate (n + 1) 'e')).data = ("x" : String).data := by rw [hn]
  rw [List.replicate_succ] at h2
  have h3 := List.head_eq_of_cons_eq h2
  exact absurd h3 (by decide)

/-- The dedup step of a new identifier keeps it in the seen set when the set
holds fewer than 1000 identifiers, and when it holds 1000 and the first key
that `range` visits in the eviction is not the new one (the new key is the last
of the list). -/
theorem dedupStep_keeps_new (pick : Nat → Nat) (seen : List String) (id : String)
    (hlen : seen.length ≤ 1000) (hid : id ∉ seen)
    (hroom : seen.length < 1000 ∨ pick 0 % (seen.length + 1) ≠ seen.length) :
    id ∈ (dedupStep pick seen id).2 ∧
      (dedupStep pick (dedupStep pick seen id).2 id).1 = true := by
  have hmem : id ∈ (dedupStep pick seen id).2 := by
    by_cases hlt : seen.length < 1000
    · rw [dedupStep_below pick seen id hid hlt]; simp
    · have h1000 : seen.length = 1000 := by omega
      have hp : pick 0 % 1001 ≠ 1000 := by
        rcases hroom with h | h
        · exact absurd h hlt
        · rw [h1000] at h; exact h
      have hl : (seen ++ [id]).length = 1001 := by simp [h1000]
      obtain ⟨k, hk, he⟩ := evictLoop_one pick 0 (seen ++ [id]) hl
      have hlt2 : pick 0 % 1001 < seen.length := by
        have := Nat.mod_lt (pick 0) (show 1001 > 0 by omega)
        omega
      rw [List.getElem?_append_left hlt2] at hk
      have hks : k ∈ seen := List.getElem?_mem hk
      have hne : id ≠ k := fun h => hid (h ▸ hks)
      have hgt : (seen ++ [id]).length > 1000 := by omega
      simp only [dedupStep, mapSet, if_neg hid, if_pos hgt, hl, he]
      exact (List.mem_erase_of_ne hne).2 (by simp)
  exact ⟨hmem, by rw [dedupStep_fst]; simpa using hmem⟩

/-! ## Lemmas: failed polls -/

/-- A trace splits in one way only at its poll number `k`. -/
theorem split_at_poll_unique (tr1 pre post1 post : List Action) (s1 s : String)
    (t1 t : Nat) (h : tr1 ++ Action.poll s1 t1 :: post1 = pre ++ Action.poll s t :: post)
    (hk : (pollCalls tr1).length = (pollCalls pre).length) :
    tr1 = pre ∧ s1 = s ∧ t1 = t ∧ post1 = post := by
  induction tr1 generalizing pre with
  | nil =>
    cases pre with
    | nil =>
      simp only [List.nil_append, List.cons.injEq, Action.poll.injEq] at h
      exact ⟨rfl, h.1.1, h.1.2, h.2⟩
    | cons y ys =>
      simp only [List.nil_append, List.cons_append, List.cons.injEq] at h
      rw [← h.1] at hk
      simp [pollCalls] at hk
  | cons a as ih =>
    cases pre with
    | nil =>
      simp only [List.nil_append, List.cons_append, List.cons.injEq] at h
      rw [h.1] at hk
      simp [pollCalls] at hk
    | cons y ys =>
      simp only [List.cons_append, List.cons.injEq] at h
      obtain ⟨hay, htl⟩ := h
      subst hay
      have hk2 : (pollCalls as).length = (pollCalls ys).length := by
        cases a <;> simpa [pollCalls] using hk
      obtain ⟨h1, h2, h3, h4⟩ := ih ys htl hk2
      exact ⟨by rw [h1], h2, h3, h4⟩

/-- The steady-state loop starts with the cancellation check and the poll. -/
theorem steadyLoop_head (c : Client) (env : Env) (rest : List PollResult)
    (st : SyncState) :
    ∃ suf, (steadyLoop c env rest st).1.trace = st.trace ++ suf ∧
      (env.cancelled (pollCalls st.trace).length = true → suf = []) ∧
      (env.cancelled (pollCalls st.trace).length = false →
        ∃ suf2, suf = Action.poll st.since 30000 :: suf2) := by
  cases rest with
  | nil =>
    simp only [steadyLoop]
    split
    · rename_i hc
      exact ⟨[], by simp, fun _ => rfl, fun h => by rw [hc] at h; cases h⟩
    · rename_i hc
      exact ⟨[Action.poll st.since 30000], rfl, fun h => absurd h hc, fun _ => ⟨[], rfl⟩⟩
  | cons res rest =>
    simp only [steadyLoop]
    split
    · rename_i hc
      exact ⟨[], by simp, fun _ => rfl, fun h => by rw [hc] at h; cases h⟩
    · rename_i hc
      obtain ⟨suf1, h1, _⟩ := iteration_ext c env res (st.emit (Action.poll st.since 30000))
      split
      · obtain ⟨suf2, h2⟩ := steadyLoop_ext c env rest
          (iteration c env res (st.emit (Action.poll st.since 30000))).1
        exact ⟨Action.poll st.since 30000 :: (suf1 ++ suf2), by rw [h2, h1]; simp,
          fun h => absurd h hc, fun _ => ⟨_, rfl⟩⟩
      · exact ⟨Action.poll st.since 30000 :: suf1, by rw [h1]; simp,
          fun h => absurd h hc, fun _ => ⟨_, rfl⟩⟩

/-- What follows a failed poll of the steady-state loop. -/
theorem steadyLoop_failure (c : Client) (env : Env) (rest : List PollResult)
    (st : SyncState) (pre : List Action) (s : String) (t : Nat) (post : List Action)
    (e : String)
    (htrace : (steadyLoop c env rest st).1.trace = pre ++ Action.poll s t :: post)
    (hle : (pollCalls st.trace).length ≤ (pollCalls pre).length)
    (hfail : rest[(pollCalls pre).length - (pollCalls st.trace).length]?
      = some (Except.error e)) :
    ∃ post2, post = Action.yieldError e :: post2 ∧
      (env.consumer (yields (pre ++ [Action.poll s t, Action.yieldError e])) = false →
        post2 = []) ∧
      (env.consumer (yields (pre ++ [Action.poll s t, Action.yieldError e])) = true →
        ∃ post3, post2 = Action.sleep 2000 :: post3 ∧
          (env.cancelled ((pollCalls pre).length + 1) = true → post3 = []) ∧
          (env.cancelled ((pollCalls pre).length + 1) = false →
            ∃ post4, post3 = Action.poll s 30000 :: post4)) := by
  induction rest generalizing st with
  | nil => simp at hfail
  | cons res rest ih =>
    simp only [steadyLoop] at htrace
    split at htrace
    · exfalso
      simp only at htrace
      rw [htrace, pollCalls_append] at hle
      simp [pollCalls] at hle
    · have hc := iteration_calls c env res (st.emit (Action.poll st.since 30000))
      rw [emit_trace, pollCalls_append] at hc
      have hlen : (pollCalls (iteration c env res
          (st.emit (Action.poll st.since 30000))).1.trace).length
          = (pollCalls st.trace).length + 1 := by
        rw [hc]; simp [pollCalls]
      by_cases hk : (pollCalls pre).length = (pollCalls st.trace).length
      · -- the poll of this iteration
        rw [hk, Nat.sub_self] at hfail
        simp only [List.getElem?_cons_zero, Option.some.injEq] at hfail
        subst hfail
        simp only [iteration] at htrace
        split at htrace
        · rename_i hcons
          simp only [Status.running, if_true] at htrace
          obtain ⟨suf, h1, h2, h3⟩ := steadyLoop_head c env rest
            (((st.emit (Action.poll st.since 30000)).emit (Action.yieldError e)).emit
              (Action.sleep 2000))
          rw [h1] at htrace
          simp only [emit_trace, List.append_assoc, List.singleton_append] at htrace
          obtain ⟨e1, e2, e3, e4⟩ := split_at_poll_unique _ _ _ _ _ _ _ _ htrace hk.symm
          subst e1 e2 e3
          refine ⟨_, e4.symm, ?_, ?_⟩
          · intro hf
            simp only [emit_trace, List.append_assoc, List.singleton_append] at hcons
            rw [hcons] at hf
            cases hf
          · intro _
            refine ⟨suf, rfl, ?_, ?_⟩
            · intro hx
              apply h2
              simpa [pollCalls_append, pollCalls] using hx
            · intro hx
              apply h3
              simpa [pollCalls_append, pollCalls] using hx
        · rename_i hcons
          simp only [reduceCtorEq, if_false] at htrace
          simp only [emit_trace, List.append_assoc, List.singleton_append] at htrace
          obtain ⟨e1, e2, e3, e4⟩ := split_at_poll_unique _ _ _ _ _ _ _ _ htrace hk.symm
          subst e1 e2 e3
          refine ⟨[], e4.symm, fun _ => rfl, ?_⟩
          intro ht
          simp only [emit_trace, List.append_assoc, List.singleton_append] at hcons
          exact absurd ht hcons
      · -- a later poll
        have hlt : (pollCalls st.trace).length < (pollCalls pre).length := by omega
        split at htrace
        · apply ih _ htrace (by rw [hlen]; omega)
          rw [hlen]
          have hidx : (pollCalls pre).length - (pollCalls st.trace).length
              = ((pollCalls pre).length - ((pollCalls st.trace).length + 1)) + 1 := by omega
          rw [hidx, List.getElem?_cons_succ] at hfail
          exact hfail
        · exfalso
          have := congrArg (fun l => (pollCalls l).length) htrace
          simp only [hlen, pollCalls_append, pollCalls, List.length_append,
            List.length_cons] at this
          omega

/-- C5, counterexample.  First run: the bootstrap call fails and the consumer
answers the error element with continue, yet the run ends there, with one
`syncOnce` call and no retry.  Second run (the scenario, cancelled after four
calls): call 3 fails in the steady state and the consumer continues, yet the
engine sleeps and returns without another call. -/
theorem sync_failed_poll_not_always_retried :
    (exEnv.consumer (yields [Action.poll "" 0, Action.yieldError "connection reset"]) = true ∧
      (Sync exClient exEnv (Except.error "connection reset" :: exPolls)).1.trace
        = [Action.poll "" 0, Action.yieldError "connection reset"] ∧
      (Sync exClient exEnv (Except.error "connection reset" :: exPolls)).2
        = Status.bootFailed) ∧
    (exPolls[3]? = some (Except.error "connection reset") ∧
      pollCalls (Sync exClient exCancelEnv exPolls).1.trace
        = [("", 0), ("t0", 30000), ("t1", 30000), ("t2", 30000)] ∧
      yields (Sync exClient exCancelEnv exPolls).1.trace
        = [Elem.event (exEvent "e1" "@jni:example.org"),
           Elem.event (exEvent "e2" "@jni:example.org"), Elem.error "connection reset"] ∧
      exCancelEnv.consumer (yields (Sync exClient exCancelEnv exPolls).1.trace) = true ∧
      (Sync exClient exCancelEnv exPolls).2 = Status.cancelled) :=
  ⟨⟨rfl, by decide, by decide⟩, rfl, by decide, by decide, rfl, by decide⟩

/-- C5, amended.  A failed bootstrap call yields one error element and ends the
run.  A failed steady-state call (call number `k ≥ 1`, answered by `polls[k]`)
is followed by exactly one error element carrying its error; if the consumer
stops there the run ends; if not, the engine sleeps 2000 ms and then, unless
the context is cancelled, calls `syncOnce` again with the same token `s`. -/
theorem sync_poll_failure_recovery (c : Client) (env : Env) (polls : List PollResult) :
    (∀ e rest, polls = Except.error e :: rest →
      (Sync c env polls).1.trace = [Action.poll "" 0, Action.yieldError e] ∧
      (Sync c env polls).2 = Status.bootFailed) ∧
    (∀ pre s t post k e,
      (Sync c env polls).1.trace = pre ++ Action.poll s t :: post →
      (pollCalls pre).length = k → 1 ≤ k → polls[k]? = some (Except.error e) →
      ∃ post2, post = Action.yieldError e :: post2 ∧
        (env.consumer (yields (pre ++ [Action.poll s t, Action.yieldError e])) = false →
          post2 = []) ∧
        (env.consumer (yields (pre ++ [Action.poll s t, Action.yieldError e])) = true →
          ∃ post3, post2 = Action.sleep 2000 :: post3 ∧
            (env.cancelled (k + 1) = true → post3 = []) ∧
            (env.cancelled (k + 1) = false →
              ∃ post4, post3 = Action.poll s 30000 :: post4))) := by
  constructor
  · intro e rest h
    rw [h]
    exact ⟨rfl, rfl⟩
  · intro pre s t post k e htrace hk h1 hfail
    subst hk
    cases polls with
    | nil => simp at hfail
    | cons res rest =>
      cases res with
      | error err =>
        exfalso
        have := congrArg (fun l => (pollCalls l).length) htrace
        simp only [Sync, emit_trace, pollCalls_append, pollCalls, List.length_append,
          List.length_cons, List.length_nil] at this
        omega
      | ok boot =>
        simp only [Sync] at htrace
        apply steadyLoop_failure c env rest _ pre s t post e htrace
        · simpa [pollCalls] using h1
        · simp only [pollCalls, List.length_cons, List.length_nil]
          have hidx : (pollCalls pre).length = ((pollCalls pre).length - (0 + 1)) + 1 := by
            omega
          rw [hidx, List.getElem?_cons_succ] at hfail
          exact hfail

/-- C5 amended, on the scenario: call 3 fails with token "t2"; the error element
follows, then the sleep, then the call with "t2" again. -/
theorem sync_poll_failure_recovery_witness :
    (Sync exClient exEnv exPolls).1.trace =
      [Action.poll "" 0, Action.poll "t0" 30000,
        Action.dedup "e1" ["e1"], Action.yieldEvent (exEvent "e1" "@jni:example.org"),
        Action.dedup "e2" ["e1", "e2"], Action.yieldEvent (exEvent "e2" "@jni:example.org"),
        Action.poll "t1" 30000, Action.dedup "e2" ["e1", "e2"]] ++
      Action.poll "t2" 30000 ::
        [Action.yieldError "connection reset", Action.sleep 2000,
          Action.poll "t2" 30000, Action.poll "t3" 30000] ∧
    exPolls[3]? = some (Except.error "connection reset") ∧
    ∃ post2, [Action.yieldError "connection reset", Action.sleep 2000,
        Action.poll "t2" 30000, Action.poll "t3" 30000]
        = Action.yieldError "connection reset" :: post2 ∧
      (exEnv.consumer (yields ([Action.poll "" 0, Action.poll "t0" 30000,
        Action.dedup "e1" ["e1"], Action.yieldEvent (exEvent "e1" "@jni:example.org"),
        Action.dedup "e2" ["e1", "e2"], Action.yieldEvent (exEvent "e2" "@jni:example.org"),
        Action.poll "t1" 30000, Action.dedup "e2" ["e1", "e2"]] ++
        [Action.poll "t2" 30000, Action.yieldError "connection reset"])) = false →
          post2 = []) ∧
      (exEnv.consumer (yields ([Action.poll "" 0, Action.poll "t0" 30000,
        Action.dedup "e1" ["e1"], Action.yieldEvent (exEvent "e1" "@jni:example.org"),
        Action.dedup "e2" ["e1", "e2"], Action.yieldEvent (exEvent "e2" "@jni:example.org"),
        Action.poll "t1" 30000, Action.dedup "e2" ["e1", "e2"]] ++
        [Action.poll "t2" 30000, Action.yieldError "connection reset"])) = true →
          ∃ post3, post2 = Action.sleep 2000 :: post3 ∧
            (exEnv.cancelled (3 + 1) = true → post3 = []) ∧
            (exEnv.cancelled (3 + 1) = false →
              ∃ post4, post3 = Action.poll "t2" 30000 :: post4)) :=
  ⟨by decide, rfl,
    (sync_poll_failure_recovery exClient exEnv exPolls).2 _ "t2" 30000 _ 3
      "connection reset" (by decide) (by decide) (by decide) rfl⟩

/-! ## Lemmas: delivery without eviction -/

theorem yieldedEvents_append (a b : List Action) :
    yieldedEvents (a ++ b) = yieldedEvents a ++ yieldedEvents b := by
  induction a with
  | nil => rfl
  | cons x xs ih => cases x <;> simp [yieldedEvents, ih]

theorem dedupIds_append (a b : List Action) :
    dedupIds (a ++ b) = dedupIds a ++ dedupIds b := by
  induction a with
  | nil => rfl
  | cons x xs ih => cases x <;> simp [dedupIds, ih]

theorem firstOccurrences_append (earlier l1 l2 : List MatrixEvent) :
    firstOccurrences earlier (l1 ++ l2) =
      firstOccurrences earlier l1 ++ firstOccurrences (earlier ++ l1) l2 := by
  induction l1 generalizing earlier with
  | nil => simp [firstOccurrences]
  | cons ev rest ih =>
    simp only [List.cons_append, firstOccurrences]
    split <;> simp [ih, List.append_assoc]

/-- A duplicate-free list of members of a finite set is no longer than the
set is large. -/
theorem length_le_card_of_nodup (l : List String) (u : Finset String) (hn : l.Nodup)
    (hsub : ∀ x ∈ l, x ∈ u) : l.length ≤ u.card := by
  rw [← List.toFinset_card_of_nodup hn]
  apply Finset.card_le_card
  intro x hx
  exact hsub x (List.mem_toFinset.1 hx)

/-- The dedup step when the identifiers fit in the seen set. -/
theorem markSeen_matches (env : Env) (st : SyncState) (earlier : List MatrixEvent)
    (ev : MatrixEvent) (u : Finset String) (hu : u.card ≤ 1000)
    (hsub : ∀ x ∈ (earlier ++ [ev]).map (fun e => e.EventID), x ∈ u)
    (hm : SeenMatches st.seen earlier) :
    (markSeen env st ev.EventID).1 = decide (ev.EventID ∈ earlier.map (fun e => e.EventID)) ∧
      SeenMatches (markSeen env st ev.EventID).2.seen (earlier ++ [ev]) := by
  obtain ⟨hnodup, hiff⟩ := hm
  constructor
  · rw [markSeen_fst]
    exact decide_eq_decide.2 (hiff _)
  · rw [markSeen_seen]
    by_cases hin : ev.EventID ∈ st.seen
    · rw [dedupStep_mem _ _ _ hin]
      refine ⟨hnodup, fun x => ?_⟩
      simp only [List.map_append, List.map_cons, List.map_nil, List.mem_append,
        List.mem_singleton]
      constructor
      · intro hx; exact Or.inl ((hiff x).1 hx)
      · rintro (hx | hx)
        · exact (hiff x).2 hx
        · rw [hx]; exact hin
    · have hn2 : (st.seen ++ [ev.EventID]).Nodup :=
        List.Nodup.append hnodup (List.nodup_singleton _) (by simpa using hin)
      have hlen : (st.seen ++ [ev.EventID]).length ≤ u.card := by
        apply length_le_card_of_nodup _ _ hn2
        intro x hx
        apply hsub
        simp only [List.map_append, List.map_cons, List.map_nil, List.mem_append,
          List.mem_singleton] at hx ⊢
        rcases hx with hx | hx
        · exact Or.inl ((hiff x).1 hx)
        · exact Or.inr hx
      have hlt : st.seen.length < 1000 := by
        simp only [List.length_append, List.length_singleton] at hlen
        omega
      rw [dedupStep_below _ _ _ hin hlt]
      refine ⟨hn2, fun x => ?_⟩
      simp only [List.map_append, List.map_cons, List.map_nil, List.mem_append,
        List.mem_singleton, hiff x]

/-- The timeline loop when the consumer never stops and the identifiers fit in
the seen set: it runs to its end and yields the first occurrences of the text
messages that the human sent. -/
theorem timelineLoop_exact (c : Client) (env : Env)
    (hstop : ∀ ys, env.consumer ys = true) (u : Finset String) (hu : u.card ≤ 1000)
    (evs : List MatrixEvent) (st : SyncState) (earlier : List MatrixEvent)
    (hsub : ∀ x ∈ (earlier ++ evs.filter isTextMessage).map (fun e => e.EventID), x ∈ u)
    (hm : SeenMatches st.seen earlier) :
    (timelineLoop c env evs st).2 = Status.running ∧
    yieldedEvents (timelineLoop c env evs st).1.trace =
      yieldedEvents st.trace ++
        (firstOccurrences earlier (evs.filter isTextMessage)).filter (fromHuman c) ∧
    SeenMatches (timelineLoop c env evs st).1.seen (earlier ++ evs.filter isTextMessage) := by
  induction evs generalizing st earlier with
  | nil => simpa [timelineLoop, firstOccurrences] using hm
  | cons ev rest ih =>
    simp only [timelineLoop]
    split
    · rename_i hguard
      rw [List.filter_cons_of_neg (by rw [not_isTextMessage_of hguard]; simp)] at hsub ⊢
      exact ih st earlier hsub hm
    · rename_i hguard
      have htext := isTextMessage_of_not hguard
      rw [List.filter_cons_of_pos htext] at hsub ⊢
      have hsub1 : ∀ x ∈ (earlier ++ [ev]).map (fun e => e.EventID), x ∈ u := by
        intro x hx
        apply hsub
        simp only [List.map_append, List.map_cons, List.map_nil, List.mem_append,
          List.mem_cons, List.mem_singleton, List.not_mem_nil, or_false] at hx ⊢
        rcases hx with hx | hx
        · exact Or.inl hx
        · exact Or.inr (Or.inl hx)
      have hsub2 : ∀ x ∈ ((earlier ++ [ev]) ++ rest.filter isTextMessage).map
          (fun e => e.EventID), x ∈ u := by
        intro x hx
        apply hsub
        simpa [List.append_assoc] using hx
      obtain ⟨hm1, hm2⟩ := markSeen_matches env st earlier ev u hu hsub1 hm
      have hy1 : yieldedEvents (markSeen env st ev.EventID).2.trace = yieldedEvents st.trace := by
        rw [markSeen_trace, yieldedEvents_append]; simp [yieldedEvents]
      have happ : earlier ++ ev :: rest.filter isTextMessage
          = (earlier ++ [ev]) ++ rest.filter isTextMessage := by simp
      rw [happ]
      split
      · rename_i hseen
        rw [hm1, decide_eq_true_eq] at hseen
        obtain ⟨h1, h2, h3⟩ := ih _ _ hsub2 hm2
        refine ⟨h1, ?_, h3⟩
        rw [h2, hy1, firstOccurrences, if_pos hseen]
      · rename_i hseen
        rw [hm1, decide_eq_true_eq] at hseen
        split
        · rename_i hsender
          obtain ⟨h1, h2, h3⟩ := ih _ _ hsub2 hm2
          refine ⟨h1, ?_, h3⟩
          rw [h2, hy1, firstOccurrences, if_neg hseen,
            List.filter_cons_of_neg (by rw [not_fromHuman_of hsender]; simp)]
        · rename_i hsender
          rw [if_pos (hstop _)]
          obtain ⟨h1, h2, h3⟩ := ih ((markSeen env st ev.EventID).2.emit (Action.yieldEvent ev))
            _ hsub2 hm2
          refine ⟨h1, ?_, h3⟩
          rw [h2, emit_trace, yieldedEvents_append, hy1, firstOccurrences, if_neg hseen,
            List.filter_cons_of_pos (fromHuman_of_not hsender)]
          simp [yieldedEvents]

theorem yieldedEvents_eq_nil (l : List Action)
    (h : ∀ a ∈ l, ∀ ev, a ≠ Action.yieldEvent ev) : yieldedEvents l = [] := by
  induction l with
  | nil => rfl
  | cons x xs ih =>
    have hx := h x (List.mem_cons_self _ _)
    have hxs := ih (fun a ha => h a (List.mem_cons_of_mem _ ha))
    cases x <;> simp_all [yieldedEvents]

theorem steadyEvents_cons (c : Client) (res : PollResult) (rest : List PollResult) :
    steadyEvents c (res :: rest) = steadyEvents c [res] ++ steadyEvents c rest := by
  cases res <;> simp [steadyEvents]

/-- One iteration when the consumer never stops and the identifiers fit in the
seen set. -/
theorem iteration_exact (c : Client) (env : Env)
    (hstop : ∀ ys, env.consumer ys = true) (u : Finset String) (hu : u.card ≤ 1000)
    (res : PollResult) (st : SyncState) (earlier : List MatrixEvent)
    (hsub : ∀ x ∈ (earlier ++ (steadyEvents c [res]).filter isTextMessage).map
      (fun e => e.EventID), x ∈ u)
    (hm : SeenMatches st.seen earlier) :
    (iteration c env res st).2 = Status.running ∧
    yieldedEvents (iteration c env res st).1.trace =
      yieldedEvents st.trace ++
        (firstOccurrences earlier ((steadyEvents c [res]).filter isTextMessage)).filter
          (fromHuman c) ∧
    SeenMatches (iteration c env res st).1.seen
      (earlier ++ (steadyEvents c [res]).filter isTextMessage) := by
  cases res with
  | error err =>
    simp only [iteration, hstop, if_true, steadyEvents, List.filter_nil, firstOccurrences,
      List.append_nil, emit_trace, emit_seen, yieldedEvents_append, yieldedEvents, true_and]
    exact hm
  | ok resp =>
    obtain ⟨suf, h1, h2, _, h4⟩ :=
      joinLoop_spec env resp.Rooms.Invite { st with since := resp.NextBatch }
    have hy : yieldedEvents (joinLoop env resp.Rooms.Invite
        { st with since := resp.NextBatch }).trace = yieldedEvents st.trace := by
      rw [h1, yieldedEvents_append, yieldedEvents_eq_nil suf, List.append_nil]
      intro a ha ev h
      obtain ⟨rid, e, rfl⟩ := h2 a ha
      cases h
    have hm3 : SeenMatches (joinLoop env resp.Rooms.Invite
        { st with since := resp.NextBatch }).seen earlier := by
      rw [h4]; exact hm
    simp only [steadyEvents, roomEvents, List.append_nil] at hsub ⊢
    simp only [iteration]
    split
    · simp only [List.filter_nil, firstOccurrences, List.append_nil, true_and]
      exact ⟨hy, hm3⟩
    · rename_i room hroom
      rw [hroom] at hsub
      have := timelineLoop_exact c env hstop u hu room.Timeline.Events _ earlier hsub hm3
      rw [hy] at this
      exact this

/-- The steady-state loop when the consumer never stops, the context is never
cancelled and the identifiers fit in the seen set. -/
theorem steadyLoop_exact (c : Client) (env : Env)
    (hstop : ∀ ys, env.consumer ys = true) (hcancel : ∀ n, env.cancelled n = false)
    (u : Finset String) (hu : u.card ≤ 1000)
    (rest : List PollResult) (st : SyncState) (earlier : List MatrixEvent)
    (hsub : ∀ x ∈ (earlier ++ (steadyEvents c rest).filter isTextMessage).map
      (fun e => e.EventID), x ∈ u)
    (hm : SeenMatches st.seen earlier) :
    yieldedEvents (steadyLoop c env rest st).1.trace =
      yieldedEvents st.trace ++
        (firstOccurrences earlier ((steadyEvents c rest).filter isTextMessage)).filter
          (fromHuman c) := by
  induction rest generalizing st earlier with
  | nil =>
    simp [steadyLoop, hcancel, steadyEvents, firstOccurrences, yieldedEvents_append,
      yieldedEvents]
  | cons res rest ih =>
    rw [steadyEvents_cons, List.filter_append] at hsub ⊢
    have hsub1 : ∀ x ∈ (earlier ++ (steadyEvents c [res]).filter isTextMessage).map
        (fun e => e.EventID), x ∈ u := by
      intro x hx
      apply hsub
      simp only [List.map_append, List.mem_append] at hx ⊢
      rcases hx with hx | hx
      · exact Or.inl hx
      · exact Or.inr (Or.inl hx)
    obtain ⟨h1, h2, h3⟩ := iteration_exact c env hstop u hu res
      (st.emit (Action.poll st.since 30000)) earlier hsub1 hm
    simp only [steadyLoop, hcancel, Bool.false_eq_true, if_false, h1, if_true]
    rw [ih _ _ (by simpa [List.append_assoc] using hsub) h3, h2, firstOccurrences_append,
      List.filter_append, emit_trace, yieldedEvents_append]
    simp [yieldedEvents]

/-- C3, amended: on a client with an empty seen set, as `NewClient` builds it,
when the consumer never stops, the context is never cancelled and at most 1000
distinct identifiers reach the dedup step, the events that `Client.Sync` yields are, in
order, the events of the configured room over the successful steady-state
batches in poll order that are text messages whose `EventID` did not occur in
an earlier such text message, and that the human sent and the bot did not. -/
theorem sync_yields_expected_events (c : Client) (env : Env) (polls : List PollResult)
    (hfresh : c.seen = [])
    (hstop : ∀ ys, env.consumer ys = true) (hcancel : ∀ n, env.cancelled n = false)
    (hcap : (((steadyEvents c polls.tail).filter isTextMessage).map
      (fun e => e.EventID)).toFinset.card ≤ 1000) :
    yieldedEvents (Sync c env polls).1.trace = expectedEvents c polls := by
  cases polls with
  | nil => rfl
  | cons res rest =>
    cases res with
    | error err => rfl
    | ok boot =>
      simp only [Sync, expectedEvents]
      rw [steadyLoop_exact c env hstop hcancel _ hcap rest _ []
        (by intro x hx; simpa using hx) (by rw [hfresh]; exact ⟨List.nodup_nil, by simp⟩)]
      simp [yieldedEvents]

/-- C3 amended, on the scenario: "e1" and "e2" are delivered once each, in
order. -/
theorem sync_yields_expected_events_witness :
    exClient.seen = [] ∧ (∀ ys, exEnv.consumer ys = true) ∧
    (∀ n, exEnv.cancelled n = false) ∧
    (((steadyEvents exClient exPolls.tail).filter isTextMessage).map
      (fun e => e.EventID)).toFinset.card ≤ 1000 ∧
    expectedEvents exClient exPolls =
      [exEvent "e1" "@jni:example.org", exEvent "e2" "@jni:example.org"] ∧
    yieldedEvents (Sync exClient exEnv exPolls).1.trace = expectedEvents exClient exPolls :=
  have hcap : (((steadyEvents exClient exPolls.tail).filter isTextMessage).map
      (fun e => e.EventID)).toFinset.card ≤ 1000 :=
    (List.toFinset_card_le _).trans (by decide)
  ⟨rfl, fun _ => rfl, fun _ => rfl, hcap, by decide,
    sync_yields_expected_events exClient exEnv exPolls rfl (fun _ => rfl) (fun _ => rfl) hcap⟩

/-! ## Lemmas: no second delivery before the seen set is full -/

theorem dedupIds_card_mono (tr l : List Action) :
    (dedupIds tr).toFinset.card ≤ (dedupIds (tr ++ l)).toFinset.card := by
  apply Finset.card_le_card
  intro x hx
  rw [List.mem_toFinset] at hx ⊢
  rw [dedupIds_append]
  exact List.mem_append_left _ hx

theorem noRedelivery_snoc (tr : List Action) (a : Action) (h : NoRedelivery tr)
    (ha : (dedupIds (tr ++ [a])).toFinset.card ≤ 1000 →
      ((yieldedEvents (tr ++ [a])).map (fun e => e.EventID)).Nodup) :
    NoRedelivery (tr ++ [a]) := by
  intro pre post heq hcard
  rcases List.eq_nil_or_concat post with hp | ⟨post2, x, hp⟩
  · rw [hp, List.append_nil] at heq
    rw [← heq]
    rw [← heq] at hcard
    exact ha hcard
  · rw [hp, List.concat_eq_append, ← List.append_assoc] at heq
    exact h pre post2 (List.append_inj_left' heq rfl) hcard

/-- An action that is neither a dedup step nor the yield of an event keeps the
two invariants. -/
theorem tracks_snoc_other (seen : List String) (tr : List Action) (a : Action)
    (hd : dedupIds [a] = []) (hy : yieldedEvents [a] = [])
    (h1 : SeenTracks seen tr) (h2 : NoRedelivery tr) :
    SeenTracks seen (tr ++ [a]) ∧ NoRedelivery (tr ++ [a]) := by
  have e1 : dedupIds (tr ++ [a]) = dedupIds tr := by
    rw [dedupIds_append, hd, List.append_nil]
  have e2 : yieldedEvents (tr ++ [a]) = yieldedEvents tr := by
    rw [yieldedEvents_append, hy, List.append_nil]
  have h3 : SeenTracks seen (tr ++ [a]) := by
    unfold SeenTracks
    rw [e1, e2]
    exact h1
  exact ⟨h3, noRedelivery_snoc tr a h2 (fun hc => (h3 hc).2.2.2)⟩

/-- The dedup step keeps the two invariants. -/
theorem tracks_markSeen (env : Env) (st : SyncState) (id : String)
    (h1 : SeenTracks st.seen st.trace) (h2 : NoRedelivery st.trace) :
    SeenTracks (markSeen env st id).2.seen (markSeen env st id).2.trace ∧
      NoRedelivery (markSeen env st id).2.trace := by
  have e2 : yieldedEvents (markSeen env st id).2.trace = yieldedEvents st.trace := by
    rw [markSeen_trace, yieldedEvents_append]; simp [yieldedEvents]
  have e1 : dedupIds (markSeen env st id).2.trace = dedupIds st.trace ++ [id] := by
    rw [markSeen_trace, dedupIds_append]; simp [dedupIds]
  have h3 : SeenTracks (markSeen env st id).2.seen (markSeen env st id).2.trace := by
    intro hcard
    have hcard0 : (dedupIds st.trace).toFinset.card ≤ 1000 := by
      rw [markSeen_trace] at hcard
      exact (dedupIds_card_mono _ _).trans hcard
    obtain ⟨hn, hiff, hyd, hyn⟩ := h1 hcard0
    rw [e1, e2] at *
    rw [markSeen_seen]
    by_cases hin : id ∈ st.seen
    · rw [dedupStep_mem _ _ _ hin]
      refine ⟨hn, fun x => ?_, fun ev hev => List.mem_append_left _ (hyd ev hev), hyn⟩
      simp only [List.mem_append, List.mem_singleton]
      constructor
      · intro hx; exact Or.inl ((hiff x).1 hx)
      · rintro (hx | hx)
        · exact (hiff x).2 hx
        · rw [hx]; exact hin
    · have hn2 : (st.seen ++ [id]).Nodup :=
        List.Nodup.append hn (List.nodup_singleton _) (by simpa using hin)
      have hlen : (st.seen ++ [id]).length ≤ (dedupIds st.trace ++ [id]).toFinset.card := by
        apply length_le_card_of_nodup _ _ hn2
        intro x hx
        rw [List.mem_toFinset]
        simp only [List.mem_append, List.mem_singleton] at hx ⊢
        rcases hx with hx | hx
        · exact Or.inl ((hiff x).1 hx)
        · exact Or.inr hx
      have hlt : st.seen.length < 1000 := by
        simp only [List.length_append, List.length_singleton] at hlen
        omega
      rw [dedupStep_below _ _ _ hin hlt]
      refine ⟨hn2, fun x => ?_, fun ev hev => List.mem_append_left _ (hyd ev hev), hyn⟩
      simp only [List.mem_append, List.mem_singleton, hiff x]
  refine ⟨h3, ?_⟩
  rw [markSeen_trace]
  apply noRedelivery_snoc _ _ h2
  intro hc
  rw [← markSeen_trace] at hc ⊢
  exact (h3 hc).2.2.2

/-- The yield of an event whose identifier was not in the seen set keeps the
two invariants. -/
theorem tracks_yield (env : Env) (st : SyncState) (ev : MatrixEvent)
    (hnew : (markSeen env st ev.EventID).1 = false)
    (h1 : SeenTracks st.seen st.trace) (h2 : NoRedelivery st.trace) :
    SeenTracks ((markSeen env st ev.EventID).2.emit (Action.yieldEvent ev)).seen
        ((markSeen env st ev.EventID).2.emit (Action.yieldEvent ev)).trace ∧
      NoRedelivery ((markSeen env st ev.EventID).2.emit (Action.yieldEvent ev)).trace := by
  obtain ⟨g1, g2⟩ := tracks_markSeen env st ev.EventID h1 h2
  have hnot : ev.EventID ∉ st.seen := by
    rw [markSeen_fst] at hnew
    simpa using hnew
  have e1 : dedupIds ((markSeen env st ev.EventID).2.emit (Action.yieldEvent ev)).trace
      = dedupIds st.trace ++ [ev.EventID] := by
    rw [emit_trace, markSeen_trace, dedupIds_append, dedupIds_append]; simp [dedupIds]
  have e2 : yieldedEvents ((markSeen env st ev.EventID).2.emit (Action.yieldEvent ev)).trace
      = yieldedEvents st.trace ++ [ev] := by
    rw [emit_trace, markSeen_trace, yieldedEvents_append, yieldedEvents_append]
    simp [yieldedEvents]
  have e3 : dedupIds (markSeen env st ev.EventID).2.trace = dedupIds st.trace ++ [ev.EventID] := by
    rw [markSeen_trace, dedupIds_append]; simp [dedupIds]
  have h3 : SeenTracks ((markSeen env st ev.EventID).2.emit (Action.yieldEvent ev)).seen
      ((markSeen env st ev.EventID).2.emit (Action.yieldEvent ev)).trace := by
    intro hcard
    rw [e1] at hcard
    have hcard1 : (dedupIds (markSeen env st ev.EventID).2.trace).toFinset.card ≤ 1000 := by
      rw [e3]; exact hcard
    have hcard0 : (dedupIds st.trace).toFinset.card ≤ 1000 := by
      have := dedupIds_card_mono st.trace [Action.dedup ev.EventID []]
      rw [dedupIds_append] at this
      simp only [dedupIds] at this
      exact this.trans hcard
    obtain ⟨hn, hiff, hyd, hyn⟩ := h1 hcard0
    obtain ⟨kn, kiff, _, _⟩ := g1 hcard1
    rw [e1, e2, emit_seen]
    rw [e3] at kiff
    refine ⟨kn, kiff, ?_, ?_⟩
    · intro e he
      rcases List.mem_append.1 he with h | h
      · exact List.mem_append_left _ (hyd e h)
      · rw [List.mem_singleton.1 h]; simp
    · rw [List.map_append]
      apply List.Nodup.append hyn (List.nodup_singleton _)
      simp only [List.map_cons, List.map_nil, List.disjoint_singleton, List.mem_map, not_exists,
        not_and]
      intro e he heq
      apply hnot
      rw [← heq]
      exact (hiff _).2 (hyd e he)
  refine ⟨h3, ?_⟩
  rw [emit_trace]
  apply noRedelivery_snoc _ _ g2
  intro hc
  rw [← emit_trace] at hc ⊢
  exact (h3 hc).2.2.2

theorem joinLoop_tracks (env : Env) (rids : List String) (st : SyncState)
    (h1 : SeenTracks st.seen st.trace) (h2 : NoRedelivery st.trace) :
    SeenTracks (joinLoop env rids st).seen (joinLoop env rids st).trace ∧
      NoRedelivery (joinLoop env rids st).trace := by
  induction rids generalizing st with
  | nil => exact ⟨h1, h2⟩
  | cons rid rest ih =>
    rw [joinLoop]
    have g := tracks_snoc_other st.seen st.trace (Action.join rid (joinRoom env st rid))
      rfl rfl h1 h2
    exact ih _ g.1 g.2

theorem timelineLoop_tracks (c : Client) (env : Env) (evs : List MatrixEvent)
    (st : SyncState)
    (h1 : SeenTracks st.seen st.trace) (h2 : NoRedelivery st.trace) :
    SeenTracks (timelineLoop c env evs st).1.seen (timelineLoop c env evs st).1.trace ∧
      NoRedelivery (timelineLoop c env evs st).1.trace := by
  induction evs generalizing st with
  | nil => exact ⟨h1, h2⟩
  | cons ev rest ih =>
    have g := tracks_markSeen env st ev.EventID h1 h2
    simp only [timelineLoop]
    split
    · exact ih st h1 h2
    · split
      · exact ih _ g.1 g.2
      · rename_i hnew
        have k := tracks_yield env st ev (by simpa using hnew) h1 h2
        split
        · exact ih _ g.1 g.2
        · split
          · exact ih _ k.1 k.2
          · exact k

theorem iteration_tracks (c : Client) (env : Env) (res : PollResult) (st : SyncState)
    (h1 : SeenTracks st.seen st.trace) (h2 : NoRedelivery st.trace) :
    SeenTracks (iteration c env res st).1.seen (iteration c env res st).1.trace ∧
      NoRedelivery (iteration c env res st).1.trace := by
  cases res with
  | error err =>
    have g := tracks_snoc_other st.seen st.trace (Action.yieldError err) rfl rfl h1 h2
    simp only [iteration]
    split
    · exact tracks_snoc_other _ _ (Action.sleep 2000) rfl rfl g.1 g.2
    · exact g
  | ok resp =>
    have g := joinLoop_tracks env resp.Rooms.Invite { st with since := resp.NextBatch } h1 h2
    simp only [iteration]
    split
    · exact g
    · exact timelineLoop_tracks c env _ _ g.1 g.2

theorem steadyLoop_tracks (c : Client) (env : Env) (rest : List PollResult)
    (st : SyncState)
    (h1 : SeenTracks st.seen st.trace) (h2 : NoRedelivery st.trace) :
    NoRedelivery (steadyLoop c env rest st).1.trace := by
  induction rest generalizing st with
  | nil =>
    simp only [steadyLoop]
    split
    · exact h2
    · exact (tracks_snoc_other _ _ (Action.poll st.since 30000) rfl rfl h1 h2).2
  | cons res rest ih =>
    simp only [steadyLoop]
    split
    · exact h2
    · have g := tracks_snoc_other st.seen st.trace (Action.poll st.since 30000) rfl rfl h1 h2
      have k := iteration_tracks c env res (st.emit (Action.poll st.since 30000)) g.1 g.2
      split
      · exact ih _ k.1 k.2
      · exact k.2

/-- On a client with an empty seen set no identifier is yielded twice in an
initial part of the run in which at most 1000 distinct identifiers have reached
the dedup step. -/
theorem Sync_noRedelivery (c : Client) (env : Env) (polls : List PollResult)
    (hfresh : c.seen = []) : NoRedelivery (Sync c env polls).1.trace := by
  have h0 := tracks_snoc_other ([] : List String) [] (Action.poll "" 0) rfl rfl
    (fun _ => ⟨List.nodup_nil, by simp [dedupIds], by simp [yieldedEvents],
      by simp [yieldedEvents]⟩)
    (fun pre post h _ => by
      have : pre = [] := (List.append_eq_nil.1 h.symm).1
      rw [this]; simp [yieldedEvents])
  rw [List.nil_append] at h0
  cases polls with
  | nil => exact h0.2
  | cons res rest =>
    cases res with
    | error err =>
      exact (tracks_snoc_other _ _ (Action.yieldError err) rfl rfl h0.1 h0.2).2
    | ok boot =>
      simp only [Sync]
      exact steadyLoop_tracks c env rest _ (by rw [hfresh]; exact h0.1) h0.2

/-! ## Lemmas: a run that fills the seen set -/

theorem guard_of_isTextMessage {ev : MatrixEvent} (h : isTextMessage ev = true) :
    ¬(ev.EventID = "" ∨ ev.Typ ≠ "m.room.message" ∨ ev.Content.MsgType ≠ "m.text") := by
  simp only [isTextMessage, decide_eq_true_eq] at h
  simp only [not_or, not_not]
  exact h

theorem guard_of_fromHuman {c : Client} {ev : MatrixEvent} (h : fromHuman c ev = true) :
    ¬(ev.Sender = c.BotUserID ∨ ev.Sender ≠ c.HumanUserID) := by
  simp only [fromHuman, decide_eq_true_eq] at h
  simp only [not_or, not_not]
  exact ⟨h.2, h.1⟩

theorem markSeen_below (env : Env) (st : SyncState) (id : String)
    (hid : id ∉ st.seen) (h : st.seen.length < 1000) :
    markSeen env st id =
      (false, { st with seen := st.seen ++ [id],
                        trace := st.trace ++ [Action.dedup id (st.seen ++ [id])] }) := by
  simp only [markSeen, dedupStep_below _ _ _ hid h]

theorem markSeen_evicts_new (env : Env) (st : SyncState) (id : String)
    (hlen : st.seen.length = 1000) (hid : id ∉ st.seen)
    (hpick : ∀ n, env.rangePick n 0 % 1001 = 1000) :
    markSeen env st id = (false, { st with trace := st.trace ++ [Action.dedup id st.seen] }) := by
  simp only [markSeen, dedupStep_evicts_new _ _ _ hlen hid (hpick _)]

theorem timelineLoop_append (c : Client) (env : Env) (l1 l2 : List MatrixEvent)
    (st : SyncState) :
    timelineLoop c env (l1 ++ l2) st =
      if (timelineLoop c env l1 st).2 = Status.running then
        timelineLoop c env l2 (timelineLoop c env l1 st).1
      else timelineLoop c env l1 st := by
  induction l1 generalizing st with
  | nil => simp [timelineLoop]
  | cons ev rest ih =>
    simp only [List.cons_append, timelineLoop]
    split
    · exact ih st
    · split
      · exact ih _
      · split
        · exact ih _
        · split
          · exact ih _
          · simp

/-- The timeline loop on messages of the bot with new identifiers that fit in
the seen set: the identifiers are appended to the seen set and nothing is
yielded. -/
theorem timelineLoop_fill (c : Client) (env : Env) (evs : List MatrixEvent)
    (st : SyncState)
    (hbots : ∀ ev ∈ evs, isTextMessage ev = true ∧ ev.Sender = c.BotUserID)
    (hnodup : (st.seen ++ evs.map (fun e => e.EventID)).Nodup)
    (hlen : (st.seen ++ evs.map (fun e => e.EventID)).length ≤ 1000) :
    (timelineLoop c env evs st).2 = Status.running ∧
    (timelineLoop c env evs st).1.seen = st.seen ++ evs.map (fun e => e.EventID) ∧
    (timelineLoop c env evs st).1.since = st.since ∧
    ∃ suf, (timelineLoop c env evs st).1.trace = st.trace ++ suf ∧ yieldedEvents suf = [] := by
  induction evs generalizing st with
  | nil => exact ⟨rfl, by simp [timelineLoop], rfl, [], by simp [timelineLoop], rfl⟩
  | cons ev rest ih =>
    obtain ⟨htext, hsender⟩ := hbots ev (List.mem_cons_self _ _)
    have hin : ev.EventID ∉ st.seen := by
      intro h
      exact (List.nodup_append.1 hnodup).2.2 h (by simp)
    have hlt : st.seen.length < 1000 := by
      simp only [List.length_append, List.length_map, List.length_cons] at hlen
      omega
    simp only [timelineLoop, if_neg (guard_of_isTextMessage htext),
      markSeen_below env st ev.EventID hin hlt, Bool.false_eq_true, if_false,
      if_pos (Or.inl hsender : ev.Sender = c.BotUserID ∨ ev.Sender ≠ c.HumanUserID)]
    obtain ⟨h1, h2, h3, suf, h4, h5⟩ := ih
      { st with seen := st.seen ++ [ev.EventID],
                trace := st.trace ++ [Action.dedup ev.EventID (st.seen ++ [ev.EventID])] }
      (fun e he => hbots e (List.mem_cons_of_mem _ he))
      (by simpa [List.append_assoc] using hnodup)
      (by simpa [List.append_assoc] using hlen)
    refine ⟨h1, by rw [h2]; simp, h3,
      Action.dedup ev.EventID (st.seen ++ [ev.EventID]) :: suf, by rw [h4]; simp, ?_⟩
    simpa [yieldedEvents] using h5

/-- The timeline loop on one new text message of the human when the seen set
is full and `range` visits the newest key first: the message is yielded and
the seen set is as before. -/
theorem timelineLoop_single_evicted (c : Client) (env : Env) (st : SyncState)
    (x : MatrixEvent) (hlen : st.seen.length = 1000) (hid : x.EventID ∉ st.seen)
    (hpick : ∀ n, env.rangePick n 0 % 1001 = 1000)
    (hstop : ∀ ys, env.consumer ys = true)
    (hx1 : isTextMessage x = true) (hx2 : fromHuman c x = true) :
    timelineLoop c env [x] st =
      ({ st with trace := st.trace ++ [Action.dedup x.EventID st.seen, Action.yieldEvent x] },
        Status.running) := by
  simp only [timelineLoop, if_neg (guard_of_isTextMessage hx1),
    markSeen_evicts_new env st x.EventID hlen hid hpick, Bool.false_eq_true, if_false,
    if_neg (guard_of_fromHuman hx2), hstop, if_true, SyncState.emit, List.append_assoc,
    List.singleton_append]

/-- One iteration of the steady-state loop on a successful answer without
invitations that holds the configured room, when the context is not
cancelled. -/
theorem steadyLoop_cons_room (c : Client) (env : Env)
    (hcancel : ∀ n, env.cancelled n = false) (resp : SyncResponse)
    (rest : List PollResult) (st : SyncState) (room : JoinedRoom)
    (hinv : resp.Rooms.Invite = []) (hroom : resp.Rooms.Join.lookup c.RoomID = some room) :
    steadyLoop c env (Except.ok resp :: rest) st =
      if (timelineLoop c env room.Timeline.Events
          { since := resp.NextBatch, seen := st.seen,
            trace := st.trace ++ [Action.poll st.since 30000] }).2 = Status.running then
        steadyLoop c env rest (timelineLoop c env room.Timeline.Events
          { since := resp.NextBatch, seen := st.seen,
            trace := st.trace ++ [Action.poll st.since 30000] }).1
      else timelineLoop c env room.Timeline.Events
          { since := resp.NextBatch, seen := st.seen,
            trace := st.trace ++ [Action.poll st.since 30000] } := by
  simp only [steadyLoop, hcancel, Bool.false_eq_true, if_false, iteration, hinv, joinLoop,
    hroom, SyncState.emit]

/-- A run that fills the seen set with a thousand identifiers of messages of
the bot and then meets a new message `x` of the human in two successive
batches, when `range` visits the newest key first: `x` is yielded twice, with
only a poll and its own dedup step in between. -/
theorem redelivery_at_capacity (c : Client) (env : Env) (boot : SyncResponse)
    (evs1 : List MatrixEvent) (x : MatrixEvent) (t1 t2 : String)
    (hfresh : c.seen = [])
    (hstop : ∀ ys, env.consumer ys = true) (hcancel : ∀ n, env.cancelled n = false)
    (hpick : ∀ n, env.rangePick n 0 % 1001 = 1000)
    (hbots : ∀ ev ∈ evs1, isTextMessage ev = true ∧ ev.Sender = c.BotUserID)
    (hnodup : (evs1.map (fun e => e.EventID)).Nodup) (hlen : evs1.length = 1000)
    (hx1 : isTextMessage x = true) (hx2 : fromHuman c x = true)
    (hx3 : x.EventID ∉ evs1.map (fun e => e.EventID)) :
    ∃ pre, (Sync c env
      [Except.ok boot,
       Except.ok { NextBatch := t1, Rooms := { Invite := [], Join :=
         [(c.RoomID, { Timeline := { Events := evs1 ++ [x] } })] } },
       Except.ok { NextBatch := t2, Rooms := { Invite := [], Join :=
         [(c.RoomID, { Timeline := { Events := [x] } })] } }]).1.trace =
      pre ++ [Action.yieldEvent x, Action.poll t1 30000,
        Action.dedup x.EventID (evs1.map (fun e => e.EventID)),
        Action.yieldEvent x, Action.poll t2 30000] ∧
      yieldedEvents pre = [] := by
  have hlook : ∀ room : JoinedRoom, List.lookup c.RoomID [(c.RoomID, room)] = some room := by
    intro room; simp [List.lookup]
  obtain ⟨f1, f2, f3, suf, f4, f5⟩ := timelineLoop_fill c env evs1
    { since := t1, seen := [],
      trace := [Action.poll "" 0] ++ [Action.poll boot.NextBatch 30000] } hbots
    (by simpa using hnodup) (by simp [hlen])
  simp only [List.nil_append] at f2
  have hseenlen : (timelineLoop c env evs1
      { since := t1, seen := [],
        trace := [Action.poll "" 0] ++ [Action.poll boot.NextBatch 30000] }).1.seen.length
      = 1000 := by rw [f2, List.length_map, hlen]
  have e1 := timelineLoop_single_evicted c env _ x hseenlen (by rw [f2]; exact hx3) hpick hstop
    hx1 hx2
  refine ⟨[Action.poll "" 0, Action.poll boot.NextBatch 30000] ++ suf ++
    [Action.dedup x.EventID (evs1.map (fun e => e.EventID))], ?_, ?_⟩
  · simp only [Sync, hfresh]
    rw [steadyLoop_cons_room c env hcancel _ _ _ _ rfl (hlook _)]
    simp only
    rw [timelineLoop_append, if_pos f1, e1]
    simp only [if_true]
    rw [steadyLoop_cons_room c env hcancel _ _ _ _ rfl (hlook _)]
    have e2 := timelineLoop_single_evicted c env
      { since := t2, seen := (timelineLoop c env evs1
          { since := t1, seen := [],
            trace := [Action.poll "" 0] ++ [Action.poll boot.NextBatch 30000] }).1.seen,
        trace := ((timelineLoop c env evs1
          { since := t1, seen := [],
            trace := [Action.poll "" 0] ++ [Action.poll boot.NextBatch 30000] }).1.trace ++
          [Action.dedup x.EventID (timelineLoop c env evs1
            { since := t1, seen := [],
              trace := [Action.poll "" 0] ++ [Action.poll boot.NextBatch 30000] }).1.seen,
            Action.yieldEvent x]) ++
          [Action.poll (timelineLoop c env evs1
            { since := t1, seen := [],
              trace := [Action.poll "" 0] ++ [Action.poll boot.NextBatch 30000] }).1.since
            30000] }
      x hseenlen (by rw [f2]; exact hx3) hpick hstop hx1 hx2
    simp only
    rw [e2]
    simp only [if_true, steadyLoop, hcancel, Bool.false_eq_true, if_false, emit_trace, f4, f2, f3]
    simp
  · rw [yieldedEvents_append, yieldedEvents_append, f5]
    simp [yieldedEvents]

theorem exIds_ne_empty (id : String) (h : id ∈ exIds) : id ≠ "" := by
  unfold exIds at h
  obtain ⟨n, _, hn⟩ := List.mem_map.1 h
  intro he
  have h2 : (String.mk (List.replicate (n + 1) 'e')).data = ("" : String).data := by
    rw [hn, he]
  rw [List.replicate_succ] at h2
  cases h2

/-- The run `exFullPolls` on the client of `main.go` when `range` visits the
newest key first: "x" is yielded in both batches, and the seen set after the
second dedup step of "x" is `exIds`. -/
theorem exFullPolls_trace :
    ∃ pre, (Sync exClient exEnv exFullPolls).1.trace =
      pre ++ [Action.yieldEvent (exEvent "x" "@jni:example.org"), Action.poll "t1" 30000,
        Action.dedup "x" exIds,
        Action.yieldEvent (exEvent "x" "@jni:example.org"), Action.poll "t2" 30000] ∧
      yieldedEvents pre = [] := by
  have hmap : (exIds.map (fun id => exEvent id "@bot:example.org")).map (fun e => e.EventID)
      = exIds := by
    rw [List.map_map]
    exact List.map_id _
  have h := redelivery_at_capacity exClient exEnv
    { NextBatch := "t0", Rooms := { Invite := [], Join :=
        [("!room:example.org", { Timeline := { Events := [] } })] } }
    (exIds.map (fun id => exEvent id "@bot:example.org"))
    (exEvent "x" "@jni:example.org") "t1" "t2" rfl (fun _ => rfl) (fun _ => rfl)
    (fun _ => Nat.mod_eq_of_lt (show 1000 < 1001 by omega))
    (by
      intro ev hev
      obtain ⟨id, hid, rfl⟩ := List.mem_map.1 hev
      refine ⟨?_, rfl⟩
      simpa [isTextMessage, exEvent] using exIds_ne_empty id hid)
    (by rw [hmap]; exact exIds_nodup)
    (by rw [List.length_map, exIds_length])
    (by decide) (by decide)
    (by rw [hmap]; simp only [exEvent]; exact x_not_mem_exIds)
  have hroom : exClient.RoomID = "!room:example.org" := rfl
  rw [hmap, hroom] at h
  unfold exFullPolls exBatch
  exact h

/-! ## Lemmas: no immediate second delivery -/

theorem snoc_eq_append_cons {α : Type} (tr pre mid : List α) (a x : α)
    (h : tr ++ [a] = pre ++ x :: mid) :
    (mid = [] ∧ tr = pre ∧ a = x) ∨ ∃ mid2, mid = mid2 ++ [a] ∧ tr = pre ++ x :: mid2 := by
  rcases List.eq_nil_or_concat mid with hm | ⟨mid2, y, hm⟩
  · left
    rw [hm] at h
    have h1 := List.append_inj_left' h rfl
    have h2 := List.append_inj_right' h rfl
    simp only [List.cons.injEq, and_true] at h2
    exact ⟨hm, h1, h2⟩
  · right
    rw [hm, List.concat_eq_append, ← List.cons_append, ← List.append_assoc] at h
    have h1 := List.append_inj_left' h rfl
    have h2 := List.append_inj_right' h rfl
    simp only [List.cons.injEq, and_true] at h2
    exact ⟨mid2, by rw [hm, List.concat_eq_append, h2], h1⟩

theorem snoc_eq_append_cons_cons {α : Type} (tr pre mid post : List α) (a x y : α)
    (h : tr ++ [a] = pre ++ x :: (mid ++ y :: post)) :
    (post = [] ∧ a = y ∧ tr = pre ++ x :: mid) ∨
      ∃ post2, post = post2 ++ [a] ∧ tr = pre ++ x :: (mid ++ y :: post2) := by
  have h2 : tr ++ [a] = (pre ++ x :: mid) ++ y :: post := by rw [h]; simp
  rcases snoc_eq_append_cons tr (pre ++ x :: mid) post a y h2 with ⟨h3, h4, h5⟩ | ⟨p2, h3, h4⟩
  · exact Or.inl ⟨h3, h5, h4⟩
  · exact Or.inr ⟨p2, h3, by rw [h4]; simp⟩

theorem recentlyYieldedSeen_snoc_other (seen : List String) (tr : List Action) (a : Action)
    (hy : ∀ e, a ≠ Action.yieldEvent e) (h : RecentlyYieldedSeen seen tr) :
    RecentlyYieldedSeen seen (tr ++ [a]) := by
  intro pre e mid heq hall
  rcases snoc_eq_append_cons tr pre mid a _ heq with ⟨_, _, h3⟩ | ⟨mid2, hm, htr⟩
  · exact absurd h3 (hy e)
  · exact h pre e mid2 htr (fun id s hmem => hall id s (by rw [hm]; exact List.mem_append_left _ hmem))

theorem noImmediateRedelivery_snoc_other (tr : List Action) (a : Action)
    (hy : ∀ e, a ≠ Action.yieldEvent e) (h : NoImmediateRedelivery tr) :
    NoImmediateRedelivery (tr ++ [a]) := by
  intro pre e1 mid e2 post heq hid
  rcases snoc_eq_append_cons_cons tr pre mid post a _ _ heq with ⟨_, h2, _⟩ | ⟨p2, _, htr⟩
  · exact absurd h2 (hy e2)
  · exact h pre e1 mid e2 p2 htr hid

/-- The dedup step keeps the identifier of a recent yield in the seen set. -/
theorem recentlyYieldedSeen_markSeen (env : Env) (st : SyncState) (id : String)
    (h : RecentlyYieldedSeen st.seen st.trace) :
    RecentlyYieldedSeen (markSeen env st id).2.seen (markSeen env st id).2.trace := by
  intro pre e mid heq hall
  rw [markSeen_trace] at heq
  rcases snoc_eq_append_cons _ pre mid _ _ heq with ⟨_, _, h3⟩ | ⟨mid2, hm, htr⟩
  · cases h3
  · have hid : id = e.EventID :=
      hall id (markSeen env st id).2.seen (by rw [hm]; simp)
    have hin : e.EventID ∈ st.seen :=
      h pre e mid2 htr (fun i s hmem => hall i s (by rw [hm]; exact List.mem_append_left _ hmem))
    rw [markSeen_seen, hid, dedupStep_mem _ _ _ hin]
    exact hin

/-- After the yield of an event with a new identifier, when the eviction did
not start at the key just inserted, the identifier is in the seen set. -/
theorem recentlyYieldedSeen_yield (env : Env) (st : SyncState) (ev : MatrixEvent)
    (hlen : st.seen.length ≤ 1000) (hspare : ∀ n, env.rangePick n 0 % 1001 ≠ 1000)
    (hnew : ev.EventID ∉ st.seen) (h : RecentlyYieldedSeen st.seen st.trace) :
    RecentlyYieldedSeen ((markSeen env st ev.EventID).2.emit (Action.yieldEvent ev)).seen
      ((markSeen env st ev.EventID).2.emit (Action.yieldEvent ev)).trace := by
  intro pre e mid heq hall
  rw [emit_trace] at heq
  rw [emit_seen]
  rcases snoc_eq_append_cons _ pre mid _ _ heq with ⟨_, _, h3⟩ | ⟨mid2, hm, htr⟩
  · cases h3
    rw [markSeen_seen]
    apply (dedupStep_keeps_new _ st.seen ev.EventID hlen hnew _).1
    by_cases hlt : st.seen.length < 1000
    · exact Or.inl hlt
    · right
      have h1000 : st.seen.length = 1000 := by omega
      rw [h1000]
      exact hspare _
  · exact recentlyYieldedSeen_markSeen env st ev.EventID h pre e mid2 htr
      (fun i s hmem => hall i s (by rw [hm]; exact List.mem_append_left _ hmem))

/-- The yield of an event with a new identifier is not an immediate second
delivery. -/
theorem noImmediateRedelivery_yield (env : Env) (st : SyncState) (ev : MatrixEvent)
    (hnew : ev.EventID ∉ st.seen) (h1 : RecentlyYieldedSeen st.seen st.trace)
    (h2 : NoImmediateRedelivery st.trace) :
    NoImmediateRedelivery ((markSeen env st ev.EventID).2.emit (Action.yieldEvent ev)).trace := by
  have h3 : NoImmediateRedelivery (markSeen env st ev.EventID).2.trace := by
    rw [markSeen_trace]
    exact noImmediateRedelivery_snoc_other _ _ (fun e h => by cases h) h2
  intro pre e1 mid e2 post heq hid
  rw [emit_trace] at heq
  rcases snoc_eq_append_cons_cons _ pre mid post _ _ _ heq with ⟨_, hev, htr⟩ | ⟨p2, _, htr⟩
  · cases hev
    rw [markSeen_trace] at htr
    rcases snoc_eq_append_cons _ pre mid _ _ htr with ⟨_, _, h5⟩ | ⟨mid2, hm, htr2⟩
    · cases h5
    · by_contra hno
      apply hnew
      rw [← hid]
      apply h1 pre e1 mid2 htr2
      intro i s hmem
      by_contra hne
      exact hno ⟨i, s, by rw [hm]; exact List.mem_append_left _ hmem, hne⟩
  · exact h3 pre e1 mid e2 p2 htr hid

theorem joinLoop_noImmediate (env : Env) (rids : List String) (st : SyncState)
    (h0 : st.seen.length ≤ 1000) (h1 : RecentlyYieldedSeen st.seen st.trace)
    (h2 : NoImmediateRedelivery st.trace) :
    (joinLoop env rids st).seen.length ≤ 1000 ∧
      RecentlyYieldedSeen (joinLoop env rids st).seen (joinLoop env rids st).trace ∧
      NoImmediateRedelivery (joinLoop env rids st).trace := by
  induction rids generalizing st with
  | nil => exact ⟨h0, h1, h2⟩
  | cons rid rest ih =>
    rw [joinLoop]
    exact ih _ h0
      (recentlyYieldedSeen_snoc_other _ _ _ (fun e h => by cases h) h1)
      (noImmediateRedelivery_snoc_other _ _ (fun e h => by cases h) h2)

theorem timelineLoop_noImmediate (c : Client) (env : Env)
    (hspare : ∀ n, env.rangePick n 0 % 1001 ≠ 1000)
    (evs : List MatrixEvent) (st : SyncState)
    (h0 : st.seen.length ≤ 1000) (h1 : RecentlyYieldedSeen st.seen st.trace)
    (h2 : NoImmediateRedelivery st.trace) :
    (timelineLoop c env evs st).1.seen.length ≤ 1000 ∧
      RecentlyYieldedSeen (timelineLoop c env evs st).1.seen
        (timelineLoop c env evs st).1.trace ∧
      NoImmediateRedelivery (timelineLoop c env evs st).1.trace := by
  induction evs generalizing st with
  | nil => exact ⟨h0, h1, h2⟩
  | cons ev rest ih =>
    have g0 := markSeen_length env st ev.EventID h0
    have g1 := recentlyYieldedSeen_markSeen env st ev.EventID h1
    have g2 : NoImmediateRedelivery (markSeen env st ev.EventID).2.trace := by
      rw [markSeen_trace]
      exact noImmediateRedelivery_snoc_other _ _ (fun e h => by cases h) h2
    simp only [timelineLoop]
    split
    · exact ih st h0 h1 h2
    · split
      · exact ih _ g0 g1 g2
      · rename_i hseen
        have hnew : ev.EventID ∉ st.seen := by
          rw [markSeen_fst] at hseen
          simpa using hseen
        have k1 := recentlyYieldedSeen_yield env st ev h0 hspare hnew h1
        have k2 := noImmediateRedelivery_yield env st ev hnew h1 h2
        split
        · exact ih _ g0 g1 g2
        · split
          · exact ih _ g0 k1 k2
          · exact ⟨g0, k1, k2⟩

theorem iteration_noImmediate (c : Client) (env : Env)
    (hspare : ∀ n, env.rangePick n 0 % 1001 ≠ 1000)
    (res : PollResult) (st : SyncState)
    (h0 : st.seen.length ≤ 1000) (h1 : RecentlyYieldedSeen st.seen st.trace)
    (h2 : NoImmediateRedelivery st.trace) :
    (iteration c env res st).1.seen.length ≤ 1000 ∧
      RecentlyYieldedSeen (iteration c env res st).1.seen (iteration c env res st).1.trace ∧
      NoImmediateRedelivery (iteration c env res st).1.trace := by
  cases res with
  | error err =>
    have g1 : RecentlyYieldedSeen st.seen (st.trace ++ [Action.yieldError err]) :=
      recentlyYieldedSeen_snoc_other _ _ _ (fun e h => by cases h) h1
    have g2 : NoImmediateRedelivery (st.trace ++ [Action.yieldError err]) :=
      noImmediateRedelivery_snoc_other _ _ (fun e h => by cases h) h2
    simp only [iteration]
    split
    · exact ⟨h0, recentlyYieldedSeen_snoc_other _ _ _ (fun e h => by cases h) g1,
        noImmediateRedelivery_snoc_other _ _ (fun e h => by cases h) g2⟩
    · exact ⟨h0, g1, g2⟩
  | ok resp =>
    have g := joinLoop_noImmediate env resp.Rooms.Invite { st with since := resp.NextBatch }
      h0 h1 h2
    simp only [iteration]
    split
    · exact g
    · exact timelineLoop_noImmediate c env hspare _ _ g.1 g.2.1 g.2.2

theorem steadyLoop_noImmediate (c : Client) (env : Env)
    (hspare : ∀ n, env.rangePick n 0 % 1001 ≠ 1000)
    (rest : List PollResult) (st : SyncState)
    (h0 : st.seen.length ≤ 1000) (h1 : RecentlyYieldedSeen st.seen st.trace)
    (h2 : NoImmediateRedelivery st.trace) :
    NoImmediateRedelivery (steadyLoop c env rest st).1.trace := by
  have g1 : RecentlyYieldedSeen st.seen (st.trace ++ [Action.poll st.since 30000]) :=
    recentlyYieldedSeen_snoc_other _ _ _ (fun e h => by cases h) h1
  have g2 : NoImmediateRedelivery (st.trace ++ [Action.poll st.since 30000]) :=
    noImmediateRedelivery_snoc_other _ _ (fun e h => by cases h) h2
  induction rest generalizing st with
  | nil =>
    simp only [steadyLoop]
    split
    · exact h2
    · exact g2
  | cons res rest ih =>
    simp only [steadyLoop]
    split
    · exact h2
    · have k := iteration_noImmediate c env hspare res (st.emit (Action.poll st.since 30000))
        h0 g1 g2
      split
      · exact ih _ k.1 k.2.1 k.2.2
          (recentlyYieldedSeen_snoc_other _ _ _ (fun e h => by cases h) k.2.1)
          (noImmediateRedelivery_snoc_other _ _ (fun e h => by cases h) k.2.2)
      · exact k.2.2

/-- On a client with at most 1000 keys, when no eviction starts at the key
just inserted, no identifier is yielded twice without the dedup step of
another identifier in between. -/
theorem Sync_noImmediateRedelivery (c : Client) (env : Env) (polls : List PollResult)
    (hlen : c.seen.length ≤ 1000) (hspare : ∀ n, env.rangePick n 0 % 1001 ≠ 1000) :
    NoImmediateRedelivery (Sync c env polls).1.trace := by
  have b1 : RecentlyYieldedSeen c.seen [Action.poll "" 0] := by
    have := recentlyYieldedSeen_snoc_other c.seen [] (Action.poll "" 0)
      (fun e h => by cases h) (fun pre e mid h _ => by simp at h)
    simpa using this
  have b2 : NoImmediateRedelivery [Action.poll "" 0] := by
    have := noImmediateRedelivery_snoc_other [] (Action.poll "" 0)
      (fun e h => by cases h) (fun pre e1 mid e2 post h _ => by simp at h)
    simpa using this
  cases polls with
  | nil => exact b2
  | cons res rest =>
    cases res with
    | error err =>
      exact noImmediateRedelivery_snoc_other _ _ (fun e h => by cases h) b2
    | ok boot =>
      simp only [Sync]
      exact steadyLoop_noImmediate c env hspare rest _ hlen b1 b2

/-! ## Lemmas: a run with eviction churn -/

/-- At capacity the dedup step of a new identifier deletes the first key that
`range` visits. -/
theorem dedupStep_at_capacity (pick : Nat → Nat) (seen : List String) (id : String)
    (hlen : seen.length = 1000) (hid : id ∉ seen) :
    ∃ k, (seen ++ [id])[pick 0 % 1001]? = some k ∧
      dedupStep pick seen id = (false, (seen ++ [id]).erase k) := by
  have hl : (seen ++ [id]).length = 1001 := by simp [hlen]
  obtain ⟨k, hk, he⟩ := evictLoop_one pick 0 (seen ++ [id]) hl
  have hgt : (seen ++ [id]).length > 1000 := by omega
  refine ⟨k, hk, ?_⟩
  simp only [dedupStep, mapSet, if_neg hid, if_pos hgt, hl, he]
  rw [if_pos (show 1001 > 1000 by omega)]

/-- Two dedup steps at capacity, of new identifiers `x` and then `y`, when
`range` starts at index 999 both times: the first deletes an old key and keeps
`x`, the second deletes `x`. -/
theorem dedupStep_churn (p1 p2 : Nat → Nat) (h1 : p1 0 % 1001 = 999)
    (h2 : p2 0 % 1001 = 999) (seen : List String) (x y : String)
    (hlen : seen.length = 1000) (hx : x ∉ seen) (hy : y ∉ seen) (hxy : x ≠ y) :
    y ∉ (dedupStep p1 seen x).2 ∧ x ∉ (dedupStep p2 (dedupStep p1 seen x).2 y).2 := by
  obtain ⟨k1, hk1, e1⟩ := dedupStep_at_capacity p1 seen x hlen hx
  rw [h1, List.getElem?_append_left (by omega)] at hk1
  have hk1mem : k1 ∈ seen := List.getElem?_mem hk1
  have hs1 : (dedupStep p1 seen x).2 = seen.erase k1 ++ [x] := by
    rw [e1]
    exact List.erase_append_left _ hk1mem
  have hlen1 : (seen.erase k1).length = 999 := by
    rw [List.length_erase_of_mem hk1mem, hlen]
  have hx1 : x ∉ seen.erase k1 := fun h => hx (List.mem_of_mem_erase h)
  have hy1 : y ∉ seen.erase k1 := fun h => hy (List.mem_of_mem_erase h)
  have hy2 : y ∉ seen.erase k1 ++ [x] := by
    intro h
    rcases List.mem_append.1 h with h | h
    · exact hy1 h
    · exact hxy (List.mem_singleton.1 h).symm
  rw [hs1]
  refine ⟨hy2, ?_⟩
  obtain ⟨k2, hk2, e2⟩ := dedupStep_at_capacity p2 (seen.erase k1 ++ [x]) y
    (by simp [hlen1]) hy2
  rw [h2, List.append_assoc, List.getElem?_append_right (by omega), hlen1] at hk2
  simp only [Nat.sub_self, List.singleton_append, List.getElem?_cons_zero,
    Option.some.injEq] at hk2
  subst hk2
  rw [e2, List.append_assoc, List.erase_append_right _ hx1]
  simp only [List.singleton_append, List.erase_cons_head]
  intro h
  rcases List.mem_append.1 h with h | h
  · exact hx1 h
  · exact hxy (List.mem_singleton.1 h)

theorem y_not_mem_exIds : "y" ∉ exIds := by
  unfold exIds
  intro h
  obtain ⟨n, _, hn⟩ := List.mem_map.1 h
  have h2 : (String.mk (List.replicate (n + 1) 'e')).data = ("y" : String).data := by rw [hn]
  rw [List.replicate_succ] at h2
  have h3 := List.head_eq_of_cons_eq h2
  exact absurd h3 (by decide)

/-- The timeline loop at a text message of the human with a new identifier,
when the consumer never stops: the dedup step, then the yield. -/
theorem timelineLoop_cons_new (c : Client) (env : Env) (ev : MatrixEvent)
    (rest : List MatrixEvent) (st : SyncState)
    (hstop : ∀ ys, env.consumer ys = true)
    (h1 : isTextMessage ev = true) (h2 : fromHuman c ev = true)
    (hnew : ev.EventID ∉ st.seen) :
    timelineLoop c env (ev :: rest) st =
      timelineLoop c env rest ((markSeen env st ev.EventID).2.emit (Action.yieldEvent ev)) := by
  have hfst : (markSeen env st ev.EventID).1 = false := by
    rw [markSeen_fst]; simpa using hnew
  simp only [timelineLoop, if_neg (guard_of_isTextMessage h1), hfst, Bool.false_eq_true,
    if_false, if_neg (guard_of_fromHuman h2), hstop, if_true]

/-- A run that fills the seen set with a thousand identifiers of messages of
the bot, then meets the new messages `x` and `y` of the human and, in the next
batch, `x` again, when every eviction starts at index 999: `x` is yielded
twice, and between the two yields the only dedup steps are those of `y` and of
`x` itself. -/
theorem churn_run (c : Client) (env : Env) (boot : SyncResponse)
    (evs1 : List MatrixEvent) (x y : MatrixEvent) (t1 t2 : String)
    (hfresh : c.seen = [])
    (hstop : ∀ ys, env.consumer ys = true) (hcancel : ∀ n, env.cancelled n = false)
    (hpick : ∀ n, env.rangePick n 0 % 1001 = 999)
    (hbots : ∀ ev ∈ evs1, isTextMessage ev = true ∧ ev.Sender = c.BotUserID)
    (hnodup : (evs1.map (fun e => e.EventID)).Nodup) (hlen : evs1.length = 1000)
    (hx1 : isTextMessage x = true) (hx2 : fromHuman c x = true)
    (hy1 : isTextMessage y = true) (hy2 : fromHuman c y = true)
    (hx3 : x.EventID ∉ evs1.map (fun e => e.EventID))
    (hy3 : y.EventID ∉ evs1.map (fun e => e.EventID))
    (hxy : x.EventID ≠ y.EventID) :
    ∃ pre s2 s3, (Sync c env
      [Except.ok boot,
       Except.ok { NextBatch := t1, Rooms := { Invite := [], Join :=
         [(c.RoomID, { Timeline := { Events := evs1 ++ [x, y] } })] } },
       Except.ok { NextBatch := t2, Rooms := { Invite := [], Join :=
         [(c.RoomID, { Timeline := { Events := [x] } })] } }]).1.trace =
      pre ++ [Action.yieldEvent x, Action.dedup y.EventID s2, Action.yieldEvent y,
        Action.poll t1 30000, Action.dedup x.EventID s3, Action.yieldEvent x,
        Action.poll t2 30000] := by
  have hlook : ∀ room : JoinedRoom, List.lookup c.RoomID [(c.RoomID, room)] = some room := by
    intro room; simp [List.lookup]
  obtain ⟨f1, f2, f3, _⟩ := timelineLoop_fill c env evs1
    { since := t1, seen := [],
      trace := [Action.poll "" 0] ++ [Action.poll boot.NextBatch 30000] } hbots
    (by simpa using hnodup) (by simp [hlen])
  simp only [List.nil_append] at f2
  obtain ⟨stA, hA⟩ : ∃ s, s = (timelineLoop c env evs1
    { since := t1, seen := [],
      trace := [Action.poll "" 0] ++ [Action.poll boot.NextBatch 30000] }).1 := ⟨_, rfl⟩
  rw [← hA] at f2 f3
  have hAlen : stA.seen.length = 1000 := by rw [f2, List.length_map, hlen]
  have hxA : x.EventID ∉ stA.seen := by rw [f2]; exact hx3
  have hyA : y.EventID ∉ stA.seen := by rw [f2]; exact hy3
  obtain ⟨stB, hB⟩ : ∃ s, s = (markSeen env stA x.EventID).2.emit (Action.yieldEvent x) :=
    ⟨_, rfl⟩
  obtain ⟨stC, hC⟩ : ∃ s, s = (markSeen env stB y.EventID).2.emit (Action.yieldEvent y) :=
    ⟨_, rfl⟩
  have hchurn := dedupStep_churn (env.rangePick (dedupCount stA.trace))
    (env.rangePick (dedupCount stB.trace)) (hpick _) (hpick _) stA.seen x.EventID y.EventID
    hAlen hxA hyA hxy
  have hBseen : stB.seen = (dedupStep (env.rangePick (dedupCount stA.trace)) stA.seen
      x.EventID).2 := by rw [hB, emit_seen, markSeen_seen]
  have hyB : y.EventID ∉ stB.seen := by rw [hBseen]; exact hchurn.1
  have hCseen : stC.seen = (dedupStep (env.rangePick (dedupCount stB.trace)) stB.seen
      y.EventID).2 := by rw [hC, emit_seen, markSeen_seen]
  have hxC : x.EventID ∉ stC.seen := by rw [hCseen, hBseen]; exact hchurn.2
  have hCsince : stC.since = t1 := by
    rw [hC, emit_since, markSeen_since, hB, emit_since, markSeen_since, f3]
  have eT1 : timelineLoop c env (evs1 ++ [x, y])
      { since := t1, seen := [],
        trace := [Action.poll "" 0] ++ [Action.poll boot.NextBatch 30000] }
      = (stC, Status.running) := by
    rw [timelineLoop_append, if_pos f1, ← hA,
      timelineLoop_cons_new c env x [y] stA hstop hx1 hx2 hxA, ← hB,
      timelineLoop_cons_new c env y [] stB hstop hy1 hy2 hyB, ← hC]
    rfl
  obtain ⟨stD, hD⟩ : ∃ s : SyncState, s =
      { since := t2, seen := stC.seen,
        trace := stC.trace ++ [Action.poll stC.since 30000] } := ⟨_, rfl⟩
  have hxD : x.EventID ∉ stD.seen := by rw [hD]; exact hxC
  obtain ⟨stE, hE⟩ : ∃ s, s = (markSeen env stD x.EventID).2.emit (Action.yieldEvent x) :=
    ⟨_, rfl⟩
  have eT2 : timelineLoop c env [x] stD = (stE, Status.running) := by
    rw [timelineLoop_cons_new c env x [] stD hstop hx1 hx2 hxD, ← hE]
    rfl
  have hEsince : stE.since = t2 := by
    rw [hE, emit_since, markSeen_since, hD]
  refine ⟨stA.trace ++ [Action.dedup x.EventID (markSeen env stA x.EventID).2.seen],
    (markSeen env stB y.EventID).2.seen, (markSeen env stD x.EventID).2.seen, ?_⟩
  simp only [Sync, hfresh]
  rw [steadyLoop_cons_room c env hcancel _ _ _ _ rfl (hlook _)]
  simp only
  rw [eT1]
  simp only [if_true]
  rw [steadyLoop_cons_room c env hcancel _ _ _ _ rfl (hlook _)]
  simp only
  rw [← hD, eT2]
  simp only [if_true, steadyLoop, hcancel, Bool.false_eq_true, if_false, emit_trace, hEsince]
  rw [hE, emit_trace, markSeen_trace, hD]
  simp only [hCsince]
  rw [hC, emit_trace, markSeen_trace, hB, emit_trace, markSeen_trace]
  simp only [List.append_assoc, List.singleton_append, List.cons_append, List.nil_append]

/-- The run `exChurnPolls` on the client of `main.go` when every eviction
starts at index 999: "x" is yielded in both batches, and between the two yields
the only dedup steps are those of "y" and of "x" itself. -/
theorem exChurnPolls_trace :
    ∃ pre s2 s3, (Sync exClient exChurnEnv exChurnPolls).1.trace =
      pre ++ [Action.yieldEvent (exEvent "x" "@jni:example.org"),
        Action.dedup "y" s2, Action.yieldEvent (exEvent "y" "@jni:example.org"),
        Action.poll "t1" 30000,
        Action.dedup "x" s3, Action.yieldEvent (exEvent "x" "@jni:example.org"),
        Action.poll "t2" 30000] := by
  have hmap : (exIds.map (fun id => exEvent id "@bot:example.org")).map (fun e => e.EventID)
      = exIds := by
    rw [List.map_map]
    exact List.map_id _
  have h := churn_run exClient exChurnEnv
    { NextBatch := "t0", Rooms := { Invite := [], Join :=
        [("!room:example.org", { Timeline := { Events := [] } })] } }
    (exIds.map (fun id => exEvent id "@bot:example.org"))
    (exEvent "x" "@jni:example.org") (exEvent "y" "@jni:example.org") "t1" "t2" rfl
    (fun _ => rfl) (fun _ => rfl)
    (fun _ => Nat.mod_eq_of_lt (show 999 < 1001 by omega))
    (by
      intro ev hev
      obtain ⟨id, hid, rfl⟩ := List.mem_map.1 hev
      refine ⟨?_, rfl⟩
      simpa [isTextMessage, exEvent] using exIds_ne_empty id hid)
    (by rw [hmap]; exact exIds_nodup)
    (by rw [List.length_map, exIds_length])
    (by decide) (by decide) (by decide) (by decide)
    (by rw [hmap]; simp only [exEvent]; exact x_not_mem_exIds)
    (by rw [hmap]; simp only [exEvent]; exact y_not_mem_exIds)
    (by decide)
  have hroom : exClient.RoomID = "!room:example.org" := rfl
  rw [hroom] at h
  unfold exChurnPolls exBatch
  exact h

/-- C3, counterexample: the scenario run a second time on the same client.
The seen set holds "e1" and "e2" from the first run; the consumer never stops,
the context is never cancelled, two distinct identifiers reach the dedup step
and nothing is evicted (every snapshot is the seen set as it was); the events
"e1" and "e2" are first occurrences among the text messages of the batches of
this run, yet the run yields neither. -/
theorem sync_second_run_yields_no_first_occurrence :
    (clientAfter exClient exEnv exPolls).seen = ["e1", "e2"] ∧
    (∀ ys, exEnv.consumer ys = true) ∧ (∀ n, exEnv.cancelled n = false) ∧
    (((steadyEvents (clientAfter exClient exEnv exPolls) exPolls.tail).filter
      isTextMessage).map (fun e => e.EventID)).toFinset.card ≤ 1000 ∧
    (Sync (clientAfter exClient exEnv exPolls) exEnv exPolls).1.trace =
      [Action.poll "" 0, Action.poll "t0" 30000,
        Action.dedup "e1" ["e1", "e2"], Action.dedup "e2" ["e1", "e2"],
        Action.poll "t1" 30000, Action.dedup "e2" ["e1", "e2"],
        Action.poll "t2" 30000, Action.yieldError "connection reset", Action.sleep 2000,
        Action.poll "t2" 30000, Action.poll "t3" 30000] ∧
    expectedEvents (clientAfter exClient exEnv exPolls) exPolls =
      [exEvent "e1" "@jni:example.org", exEvent "e2" "@jni:example.org"] ∧
    yieldedEvents (Sync (clientAfter exClient exEnv exPolls) exEnv exPolls).1.trace = [] :=
  ⟨by decide, fun _ => rfl, fun _ => rfl,
    (List.toFinset_card_le _).trans (by decide), by decide, by decide, by decide⟩

/-- C4, counterexample: a run of `Client.Sync` on the client of `main.go`, with
an empty seen set, in which no eviction starts at the key just inserted.  The
first batch holds a thousand messages of the bot, which fill the seen set, and
then the messages "x" and "y" of the human; the second batch delivers "x"
again.  The insertion of "y" evicts "x", and "x" is yielded a second time:
between its two deliveries the dedup steps are those of "y" and of "x"
itself, so one other identifier has passed through the dedup cache, not a
thousand. -/
theorem sync_redelivers_after_one_other :
    exClient.seen = [] ∧ (∀ n, exChurnEnv.rangePick n 0 % 1001 ≠ 1000) ∧
    ∃ pre s2 s3, (Sync exClient exChurnEnv exChurnPolls).1.trace =
      pre ++ [Action.yieldEvent (exEvent "x" "@jni:example.org"),
        Action.dedup "y" s2, Action.yieldEvent (exEvent "y" "@jni:example.org"),
        Action.poll "t1" 30000,
        Action.dedup "x" s3, Action.yieldEvent (exEvent "x" "@jni:example.org"),
        Action.poll "t2" 30000] :=
  ⟨rfl, fun _ => by show 999 % 1001 ≠ 1000; omega, exChurnPolls_trace⟩

/-- C4, amended.  First part: in a run of `Client.Sync` on a client whose seen
set holds at most 1000 identifiers, in which no eviction starts at the key that
the same dedup step has just inserted (index 1000 of the 1001 keys), the same
identifier is never delivered twice in immediate succession: between two yields
of events with the same identifier there is the dedup step of another
identifier.  Second part: on a client with an empty seen set, as `NewClient`
builds it, no identifier is delivered twice in an initial part of the run in
which at most 1000 distinct identifiers have reached the dedup step, whatever
the evictions do. -/
theorem sync_no_immediate_redelivery (c : Client) (env : Env) (polls : List PollResult) :
    (c.seen.length ≤ 1000 → (∀ n, env.rangePick n 0 % 1001 ≠ 1000) →
      ∀ pre e1 mid e2 post,
        (Sync c env polls).1.trace =
          pre ++ Action.yieldEvent e1 :: (mid ++ Action.yieldEvent e2 :: post) →
        e1.EventID = e2.EventID → ∃ id s, Action.dedup id s ∈ mid ∧ id ≠ e1.EventID) ∧
    (c.seen = [] →
      ∀ pre post, (Sync c env polls).1.trace = pre ++ post →
        (dedupIds pre).toFinset.card ≤ 1000 →
        ((yieldedEvents pre).map (fun e => e.EventID)).Nodup) :=
  ⟨fun hlen hspare => Sync_noImmediateRedelivery c env polls hlen hspare,
    fun hfresh => Sync_noRedelivery c env polls hfresh⟩

/-- C4 amended, on two runs.  First part on the run with eviction churn, at
capacity: between the two yields of "x" there is the dedup step of "y".  Second
part on the scenario: "e1" and "e2" are delivered once each. -/
theorem sync_no_immediate_redelivery_witness :
    exClient.seen.length ≤ 1000 ∧ (∀ n, exChurnEnv.rangePick n 0 % 1001 ≠ 1000) ∧
    (∃ pre mid post, (Sync exClient exChurnEnv exChurnPolls).1.trace =
        pre ++ Action.yieldEvent (exEvent "x" "@jni:example.org") ::
          (mid ++ Action.yieldEvent (exEvent "x" "@jni:example.org") :: post) ∧
      ∃ id s, Action.dedup id s ∈ mid ∧ id ≠ (exEvent "x" "@jni:example.org").EventID) ∧
    exClient.seen = [] ∧
    (dedupIds (Sync exClient exEnv exPolls).1.trace).toFinset.card ≤ 1000 ∧
    ((yieldedEvents (Sync exClient exEnv exPolls).1.trace).map (fun e => e.EventID)).Nodup := by
  have hlen : exClient.seen.length ≤ 1000 := Nat.zero_le _
  have hspare : ∀ n, exChurnEnv.rangePick n 0 % 1001 ≠ 1000 := by
    intro n
    show 999 % 1001 ≠ 1000
    omega
  have hcap : (dedupIds (Sync exClient exEnv exPolls).1.trace).toFinset.card ≤ 1000 :=
    (List.toFinset_card_le _).trans (by decide)
  obtain ⟨pre, s2, s3, htrace⟩ := exChurnPolls_trace
  have htrace2 : (Sync exClient exChurnEnv exChurnPolls).1.trace =
      pre ++ Action.yieldEvent (exEvent "x" "@jni:example.org") ::
        ([Action.dedup "y" s2, Action.yieldEvent (exEvent "y" "@jni:example.org"),
          Action.poll "t1" 30000, Action.dedup "x" s3] ++
          Action.yieldEvent (exEvent "x" "@jni:example.org") :: [Action.poll "t2" 30000]) := by
    rw [htrace]; rfl
  exact ⟨hlen, hspare,
    ⟨pre, _, _, htrace2,
      (sync_no_immediate_redelivery exClient exChurnEnv exChurnPolls).1 hlen hspare
        pre _ _ _ _ htrace2 rfl⟩,
    rfl, hcap,
    (sync_no_immediate_redelivery exClient exEnv exPolls).2 rfl _ []
      (List.append_nil _).symm hcap⟩

/-- C9: the dedup step at the failing input.  The seen set holds the 1000
identifiers `exIds`, "x" is not one of them, and `range` visits the newest key
first.  Line 180 inserts "x" and the eviction of lines 181-189 deletes it
again: after the step "x" is not in the seen set, and the repeated check of "x"
reports it as not seen.  The run `exFullPolls` on the client of `main.go`
reaches this state: "x" is yielded from two successive batches, and the seen
set after the second dedup step of "x" is `exIds`. -/
theorem dedup_at_capacity_forgets_new_id :
    exIds.length = 1000 ∧ "x" ∉ exIds ∧
    "x" ∉ (dedupStep (fun _ => 1000) exIds "x").2 ∧
    (dedupStep (fun _ => 1000) (dedupStep (fun _ => 1000) exIds "x").2 "x").1 = false ∧
    ∃ pre, (Sync exClient exEnv exFullPolls).1.trace =
      pre ++ [Action.yieldEvent (exEvent "x" "@jni:example.org"), Action.poll "t1" 30000,
        Action.dedup "x" exIds,
        Action.yieldEvent (exEvent "x" "@jni:example.org"), Action.poll "t2" 30000] ∧
      yieldedEvents pre = [] := by
  have h := dedupStep_evicts_new (fun _ => 1000) exIds "x" exIds_length x_not_mem_exIds
    (Nat.mod_eq_of_lt (show 1000 < 1001 by omega))
  have h2 : (dedupStep (fun _ => 1000) exIds "x").2 = exIds := by rw [h]
  refine ⟨exIds_length, x_not_mem_exIds, ?_, ?_, exFullPolls_trace⟩
  · rw [h2]; exact x_not_mem_exIds
  · rw [h2, h]

end matrixapi
